import Mathlib

/-!
Verification development for the readerer ingestion pipeline.

This file gives a shallow embedding, in Lean 4, of the core components of the
readerer repository (Go): the dictionary index and lookup
(pkg/dictionary importer), the per-sentence token analysis of the concurrent
ingester, the relational store adapter (pkg/db store functions), the batch
writer, and the worker pool.  Pure Go functions become Lean functions; the
stateful store becomes explicit state passing over a relational `DB` record;
the concurrent parts are modelled by executions of the serialized committer
(the batch writer has a single committer goroutine) and, for the worker pool,
by a small labelled transition system whose atomic steps are the mutex-guarded
critical sections of the Go code.

Machine integers (Go int64 / int) are modelled as `Int` / `Nat`; none of the
verified properties exercise overflow.  Strings are modelled as Lean `String`,
and the Go byte-wise string order coincides with code-point lexicographic
order on UTF-8, which is what `goStrLe` below computes.
-/

namespace Readerer

/-! ## Dictionary data model (pkg/dictionary/dictionary.go) -/

/-- Element of a JMdict entry: a kanji or kana surface form. -/
structure JMdictElement where
  Text : String
  Common : Bool
  Tags : List String
deriving DecidableEq, Repr

/-- One gloss of a sense. -/
structure JMdictGloss where
  Text : String
  Lang : String
deriving DecidableEq, Repr

/-- One sense of a JMdict entry. -/
structure JMdictSense where
  PartOfSpeech : List String
  Gloss : List JMdictGloss
deriving DecidableEq, Repr

/-- A dictionary entry, as parsed from jmdict-simplified JSON. -/
structure JMdictEntry where
  Id : String
  Kanji : List JMdictElement
  Kana : List JMdictElement
  Sense : List JMdictSense
deriving DecidableEq, Repr

/-- Katakana to hiragana conversion (dictionary.ToHiragana): code points in
U+30A1..U+30F6 are shifted down by 0x60, everything else is unchanged. -/
def ToHiragana (s : String) : String :=
  String.mk (s.data.map fun r =>
    if 0x30A1 ≤ r.toNat ∧ r.toNat ≤ 0x30F6 then Char.ofNat (r.toNat - 0x60) else r)

/-- Lexicographic comparison on char lists by code point.  On UTF-8 encoded
strings this agrees with Go's byte-wise string comparison. -/
def charsLe : List Char → List Char → Bool
  | [], _ => true
  | _ :: _, [] => false
  | c :: cs, d :: ds =>
    if c.toNat < d.toNat then true
    else if d.toNat < c.toNat then false
    else charsLe cs ds

/-- Go string comparison (s <= t), byte-wise lexicographic. -/
def goStrLe (a b : String) : Bool := charsLe a.data b.data

/-- Strict Go string comparison expressed through `goStrLe`. -/
def goStrLt (a b : String) : Prop := goStrLe a b = true ∧ a ≠ b

/-! ### Dictionary index construction and lookup (part of dictionary.Importer)

`NewImporter` builds `index : map[string][]JMdictEntry`, appending each entry
once per kanji element and once per kana element whose text equals the key,
iterating entries in order.  `bucket entries term` reproduces the bucket the
Go map holds under key `term`. -/

/-- The list of entries the Go index stores under key `term`, in order: for
each entry (in input order), one copy per kanji element with that text, then
one copy per kana element with that text. -/
def bucket (entries : List JMdictEntry) (term : String) : List JMdictEntry :=
  entries.flatMap fun e =>
    (e.Kanji.filter fun k => k.Text = term).map (fun _ => e) ++
    (e.Kana.filter fun k => k.Text = term).map (fun _ => e)

/-- Assignment `candidates[e.Id] = e` into the Go dedup map, modelled on an
association list: replace the held entry when the id is present, append
otherwise. -/
def upsertAssoc (acc : List JMdictEntry) (e : JMdictEntry) : List JMdictEntry :=
  if acc.any fun x => x.Id = e.Id then
    acc.map fun x => if x.Id = e.Id then e else x
  else acc ++ [e]

/-- The helper `search` of findMatches: skip empty terms, otherwise fold the
index bucket into the candidate map. -/
def searchTerm (entries : List JMdictEntry) (acc : List JMdictEntry)
    (term : String) : List JMdictEntry :=
  if term = "" then acc else (bucket entries term).foldl upsertAssoc acc

/-- Filter predicate `isMatch` of the importer: the entry must contain the
word or the lemma among its kanji or kana texts, and, when a pronunciation is
given, some kana reading must normalize to the same hiragana. -/
def isMatch (entry : JMdictEntry) (word lem pronunciation : String) : Bool :=
  let hasText :=
    (entry.Kanji.any fun k => k.Text = word || k.Text = lem) ||
    (entry.Kana.any fun k => k.Text = word || k.Text = lem)
  if !hasText then false
  else if pronunciation = "" then true
  else entry.Kana.any fun k => ToHiragana k.Text = ToHiragana pronunciation

/-- Candidate collection of `findMatches`: look up word, then lemma, dedup by
entry id (map semantics: last write wins). -/
def findCandidates (entries : List JMdictEntry) (word lem : String) :
    List JMdictEntry :=
  searchTerm entries (searchTerm entries [] word) lem

/-- Importer.findMatches: collect candidates for word and lemma, filter by
`isMatch`, and sort ascending by entry id.  The Go map iteration order is
unspecified, but the final sort by (deduplicated, hence distinct) ids makes
the output independent of it. -/
def findMatches (entries : List JMdictEntry) (word lem pronunciation : String) :
    List JMdictEntry :=
  List.insertionSort (fun a b => goStrLe a.Id b.Id = true)
    ((findCandidates entries word lem).filter fun e =>
      isMatch e word lem pronunciation)

/-- Importer.Lookup: returns the matches and a nil error; an empty match list
is returned as the nil slice (here the empty list), never as an error. -/
def Lookup (entries : List JMdictEntry) (word lem pronunciation : String) :
    List JMdictEntry × Option String :=
  let found := findMatches entries word lem pronunciation
  if found.isEmpty then ([], none) else (found, none)

/-- The text condition of `isMatch` restricted to a single term: some kanji or
kana element of the entry has exactly this text.  An entry lies in the index
bucket of `t` iff this holds. -/
def textHas (e : JMdictEntry) (t : String) : Bool :=
  (e.Kanji.any fun k => k.Text = t) || (e.Kana.any fun k => k.Text = t)

/-- A dictionary entry whose only kana element has empty text, used to probe
the lookup with empty search terms. -/
def cexKanaEmpty : JMdictEntry := ⟨"1000", [], [⟨"", false, []⟩], []⟩

/-- A one-kanji, one-kana dictionary entry for the lookup witnesses. -/
def c3wEntry : JMdictEntry :=
  ⟨"100", [⟨"犬", true, []⟩], [⟨"いぬ", true, []⟩], []⟩

/-! ### Definition formatting (dictionary.FormatDefinitions)

The Go code flattens each matched entry into a `DefinitionEntry` (all gloss
texts across senses, all part-of-speech tags across senses) and serializes the
list with `json.Marshal`.  The JSON encoder below reproduces that layout;
`json.Marshal`'s HTML-escaping of a few characters is not reproduced, since no
verified property depends on the exact bytes, only on determinism and on the
result being non-empty. -/

/-- Flattened definition record stored in the definitions column. -/
structure DefinitionEntry where
  Senses : List String
  POS : List String
deriving DecidableEq, Repr

/-- Hex digit character for the JSON control-character escape. -/
def hexDigit (n : Nat) : Char :=
  if n < 10 then Char.ofNat (48 + n) else Char.ofNat (87 + n)

/-- JSON escaping of a single character. -/
def jsonEscapeChar (c : Char) : String :=
  if c = '"' then "\\\""
  else if c = '\\' then "\\\\"
  else if c = '\n' then "\\n"
  else if c = '\r' then "\\r"
  else if c = '\t' then "\\t"
  else if c.toNat < 0x20 then
    "\\u00" ++ String.mk [hexDigit (c.toNat / 16), hexDigit (c.toNat % 16)]
  else String.mk [c]

/-- JSON string literal. -/
def jsonString (s : String) : String :=
  "\"" ++ String.join (s.data.map jsonEscapeChar) ++ "\""

/-- JSON array from already-encoded elements. -/
def jsonArray (elems : List String) : String :=
  "[" ++ String.intercalate "," elems ++ "]"

/-- Flattening of one entry: all gloss texts across all senses, then all
part-of-speech tags across all senses, duplicates preserved. -/
def entryToDefinition (e : JMdictEntry) : DefinitionEntry :=
  { Senses := e.Sense.flatMap fun s => s.Gloss.map (·.Text)
    POS := e.Sense.flatMap (·.PartOfSpeech) }

/-- JSON object for one flattened definition. -/
def encodeDefinition (d : DefinitionEntry) : String :=
  "\x7b\"senses\":" ++ jsonArray (d.Senses.map jsonString) ++
  ",\"pos\":" ++ jsonArray (d.POS.map jsonString) ++ "\x7d"

/-- dictionary.FormatDefinitions: serialize the flattened definitions of the
matched entries.  `json.Marshal` renders the nil slice (no entries) as
`null`. -/
def FormatDefinitions (entries : List JMdictEntry) : String :=
  if entries.isEmpty then "null"
  else jsonArray ((entries.map entryToDefinition).map encodeDefinition)

/-! ## Token analysis of the concurrent ingester (Ingester.processSentence) -/

/-- A morphological token (pkg/readerer Token). -/
structure Token where
  Surface : String
  BaseForm : String
  Reading : String
  PartsOfSpeech : List String
  PrimaryPOS : String
deriving DecidableEq, Repr

/-- A sentence with its tokens (pkg/readerer Sentence). -/
structure Sentence where
  Text : String
  Tokens : List Token
deriving DecidableEq, Repr

/-- Membership in the character class of the compiled filter regex
`^[a-zA-Z0-9\s[:punct:]]+$`: Go's `\s` is tab, newline, form feed, carriage
return and space; ASCII alphanumerics and POSIX punctuation together are
exactly the printable ASCII range 0x21..0x7E. -/
def goAsciiClassChar (c : Char) : Bool :=
  let n := c.toNat
  decide (n = 9 ∨ n = 10 ∨ n = 12 ∨ n = 13 ∨ n = 32 ∨ (33 ≤ n ∧ n ≤ 126))

/-- Whether the filter regex matches the whole surface: one or more characters,
all from the class above. -/
def matchesAsciiRegex (s : String) : Bool :=
  !s.data.isEmpty && s.data.all goAsciiClassChar

/-- The token filter of Ingester.processSentence: a token is dropped when its
primary part of speech is 記号, 補助記号, 助詞 or 助動詞, when its second
part-of-speech label is 数, or when its surface matches the ASCII regex. -/
def discardToken (t : Token) : Bool :=
  t.PrimaryPOS == "記号" || t.PrimaryPOS == "補助記号" ||
  t.PrimaryPOS == "助詞" || t.PrimaryPOS == "助動詞" ||
  (decide (1 < t.PartsOfSpeech.length) && (t.PartsOfSpeech.getD 1 "" == "数")) ||
  matchesAsciiRegex t.Surface

/-- Canonical word of a retained token: the base form when it is non-empty and
not the literal asterisk, else the surface. -/
def canonicalWord (t : Token) : String :=
  if t.BaseForm ≠ "" ∧ t.BaseForm ≠ "*" then t.BaseForm else t.Surface

/-- Aggregation record: one canonical word with its in-sentence occurrence
count and its aggregated hiragana reading, kept in first-seen order (the Go
code keeps `wordCounts`, `wordReadings` and `orderedWords`). -/
structure WordAgg where
  word : String
  count : Nat
  reading : String
deriving DecidableEq, Repr

/-- One step of the aggregation loop of processSentence. -/
def aggStep (acc : List WordAgg) (t : Token) : List WordAgg :=
  if discardToken t then acc
  else
    let w := canonicalWord t
    if acc.any fun a => a.word == w then
      acc.map fun a =>
        if a.word == w then
          { a with
            count := a.count + 1
            reading :=
              if a.reading = "" ∧ ToHiragana t.Reading ≠ "" then ToHiragana t.Reading
              else a.reading }
        else a
    else acc ++ [⟨w, 1, ToHiragana t.Reading⟩]

/-- The token aggregation loop of processSentence. -/
def aggregateTokens (ts : List Token) : List WordAgg :=
  ts.foldl aggStep []

/-- Prepared data for one word occurrence (ingest wordData). -/
structure WordData where
  Word : String
  Reading : String
  Definitions : String
  Count : Nat
deriving DecidableEq, Repr

/-- Reading selection from the first match: the first kana element marked
common, else (also when the common one has empty text) the first kana element,
normalized to hiragana; with no kana elements the aggregated reading is
kept. -/
def dictionaryReading (m0 : JMdictEntry) (fallback : String) : String :=
  match m0.Kana with
  | [] => fallback
  | k0 :: _ =>
    let found :=
      match m0.Kana.find? (fun k => k.Common) with
      | some k => k.Text
      | none => ""
    ToHiragana (if found = "" then k0.Text else found)

/-- Dictionary enrichment of one aggregated word (the second loop of
processSentence): look up `(word, word, "")`; on matches format the
definitions and take the dictionary's preferred reading. -/
def enrichWord (dict : Option (List JMdictEntry)) (a : WordAgg) : WordData :=
  match dict with
  | none => ⟨a.word, a.reading, "", a.count⟩
  | some entries =>
    match (Lookup entries a.word a.word "").1 with
    | [] => ⟨a.word, a.reading, "", a.count⟩
    | m0 :: ms =>
      ⟨a.word, dictionaryReading m0 a.reading, FormatDefinitions (m0 :: ms), a.count⟩

/-- Result of processing one sentence (ingest processedSentence; the Error
field is never set by processSentence and is omitted). -/
structure ProcessedSentence where
  Index : Nat
  Sentence : String
  Words : List WordData
deriving DecidableEq, Repr

/-- Ingester.processSentence: filter and aggregate the tokens, then enrich each
canonical word from the dictionary when one is configured. -/
def processSentence (dict : Option (List JMdictEntry)) (index : Nat)
    (s : Sentence) : ProcessedSentence :=
  ⟨index, s.Text, (aggregateTokens s.Tokens).map (enrichWord dict)⟩


/-! ## Relational store model (pkg/db store functions, final schema)

The schema is the final one of pkg/db/migrations.sql: `words` with
UNIQUE(word, lemma, language); `sources` with `last_processed_sentence`;
`sentences` with unique text; `word_sources` with UNIQUE(word_id, source_id)
and nullable sentence references; `word_contexts` with NOT NULL `sentence_id`
and UNIQUE(word_source_id, sentence_id).  Row ids are SQLite AUTOINCREMENT
integers, modelled as `Int` with per-table next-id counters.  The store
functions are the DBExecutor-based drafts that match this schema
(CreateOrGetWord with the upsert RETURNING id, LinkWordToSource with the
increment parameter, getOrCreateSentence, UpdateSourceProgress,
GetSourceProgress). -/

/-- Row of the words table; all text columns are written as Go strings (never
NULL) by these code paths. -/
structure WordRow where
  id : Int
  word : String
  lem : String
  pronunciation : String
  definitions : String
  language : String
deriving DecidableEq, Repr

/-- Row of the sources table; only the columns the verified operations touch
are modelled. -/
structure SourceRow where
  id : Int
  lastProcessedSentence : Int
deriving DecidableEq, Repr

/-- Row of the sentences table. -/
structure SentenceRow where
  id : Int
  text : String
deriving DecidableEq, Repr

/-- Row of the word_sources link table; the sentence references are nullable
(`ON DELETE SET NULL` columns). -/
structure WordSourceRow where
  id : Int
  wordId : Int
  sourceId : Int
  contextSentenceId : Option Int
  exampleSentenceId : Option Int
  occurrenceCount : Int
deriving DecidableEq, Repr

/-- Row of the word_contexts table; sentence_id is NOT NULL in the final
schema. -/
structure WordContextRow where
  wordSourceId : Int
  sentenceId : Int
deriving DecidableEq, Repr

/-- The relational database state. -/
structure DB where
  words : List WordRow
  sources : List SourceRow
  sentences : List SentenceRow
  wordSources : List WordSourceRow
  wordContexts : List WordContextRow
  nextWordId : Int
  nextSentenceId : Int
  nextWordSourceId : Int
deriving DecidableEq, Repr

/-- Error kinds surfaced by the store operations: invalid input (validation
failures with their Go message), a foreign-key violation, and a NOT NULL
constraint violation. -/
inductive DBErr where
  | invalidInput (msg : String)
  | fkViolation
  | notNullViolation
deriving DecidableEq, Repr

/-- Whitespace predicate used for Go's strings.TrimSpace; the exotic Unicode
space characters Go also trims are not exercised by any verified property. -/
def goIsSpace (c : Char) : Bool :=
  decide (c.toNat = 9 ∨ c.toNat = 10 ∨ c.toNat = 11 ∨ c.toNat = 12 ∨
          c.toNat = 13 ∨ c.toNat = 32 ∨ c.toNat = 0x85 ∨ c.toNat = 0xA0)

/-- Go strings.TrimSpace over the char list of the string. -/
def goTrimSpace (s : String) : String :=
  String.mk (((s.data.dropWhile goIsSpace).reverse.dropWhile goIsSpace).reverse)

/-- The conflict target of the words upsert: UNIQUE(word, lemma, language). -/
def wordKey (t lem language : String) (r : WordRow) : Bool :=
  r.word = t ∧ r.lem = lem ∧ r.language = language

/-- The DO UPDATE clause of the words upsert, applied to the conflicting row:
COALESCE(NULLIF(excluded.pronunciation, ''), words.pronunciation) and the same
for definitions. -/
def updateWordRow (reading definitions t lem language : String)
    (x : WordRow) : WordRow :=
  if wordKey t lem language x then
    { x with
      pronunciation := if reading = "" then x.pronunciation else reading
      definitions := if definitions = "" then x.definitions else definitions }
  else x

/-- db.CreateOrGetWord (DBExecutor draft): trim the word and reject empty;
insert `(word, lemma, pronunciation, definitions, language)`, and on conflict
of (word, lemma, language) overwrite pronunciation and definitions only with
non-empty incoming values (COALESCE(NULLIF(excluded.x, ''), words.x));
RETURNING id gives the existing row id on conflict and the fresh id
otherwise. -/
def CreateOrGetWord (db : DB) (word lem reading definitions language : String) :
    Except DBErr (Int × DB) :=
  let trimmedWord := goTrimSpace word
  if trimmedWord = "" then .error (.invalidInput "word must be non-empty")
  else
    match db.words.find? (wordKey trimmedWord lem language) with
    | some r =>
      .ok (r.id,
        { db with
          words := db.words.map (updateWordRow reading definitions
            trimmedWord lem language) })
    | none =>
      .ok (db.nextWordId,
        { db with
          words := db.words ++
            [⟨db.nextWordId, trimmedWord, lem, reading, definitions, language⟩]
          nextWordId := db.nextWordId + 1 })

/-- db.getOrCreateSentence: empty text (after trimming) yields the sentinel id
0 and no write; otherwise select-or-insert by unique text. -/
def getOrCreateSentence (db : DB) (text : String) : Int × DB :=
  let trimmed := goTrimSpace text
  if trimmed = "" then (0, db)
  else
    match db.sentences.find? fun r => r.text = trimmed with
    | some r => (r.id, db)
    | none =>
      (db.nextSentenceId,
        { db with
          sentences := db.sentences ++ [⟨db.nextSentenceId, trimmed⟩]
          nextSentenceId := db.nextSentenceId + 1 })

/-- db.nullableInt64: the sentinel 0 becomes NULL. -/
def nullableInt64 (v : Int) : Option Int := if v = 0 then none else some v

/-- Number of word_contexts rows held by one word_sources row. -/
def contextCount (db : DB) (wsid : Int) : Nat :=
  (db.wordContexts.filter fun r => r.wordSourceId = wsid).length

/-- The DO UPDATE clause of the word_sources upsert, applied to the
conflicting row. -/
def updateWSRow (wordID sourceID incrementAmount : Int)
    (cid eid : Option Int) (x : WordSourceRow) : WordSourceRow :=
  if x.wordId = wordID ∧ x.sourceId = sourceID then
    { x with
      occurrenceCount := x.occurrenceCount + incrementAmount
      contextSentenceId := cid
      exampleSentenceId := eid }
  else x

/-- The word_sources upsert statement of db.LinkWordToSource: insert the link
row with occurrence_count set to the increment, or on conflict of
(word_id, source_id) add the increment to occurrence_count and overwrite the
two sentence references; RETURNING id yields the row id.  A fresh insert is
subject to the foreign keys on word_id and source_id (PRAGMA foreign_keys is
ON); the DO UPDATE path touches an existing row and cannot violate them. -/
def linkUpsertWordSource (db2 : DB) (wordID sourceID : Int)
    (ctxID exID incrementAmount : Int) : Except DBErr (Int × DB) :=
  match db2.wordSources.find? fun r =>
      r.wordId = wordID ∧ r.sourceId = sourceID with
  | some r =>
    .ok (r.id,
      { db2 with
        wordSources := db2.wordSources.map (updateWSRow wordID sourceID
          incrementAmount (nullableInt64 ctxID) (nullableInt64 exID)) })
  | none =>
    if (db2.words.any fun r => r.id = wordID) ∧
        (db2.sources.any fun r => r.id = sourceID) then
      .ok (db2.nextWordSourceId,
        { db2 with
          wordSources := db2.wordSources ++
            [⟨db2.nextWordSourceId, wordID, sourceID,
              nullableInt64 ctxID, nullableInt64 exID, incrementAmount⟩]
          nextWordSourceId := db2.nextWordSourceId + 1 })
    else .error .fkViolation

/-- The capped context insert at the end of LinkWordToSource: insert the pair
when fewer than 5 contexts exist for the row, with ON CONFLICT DO NOTHING
absorbing an existing identical pair; an attempted insert with a NULL sentence
id violates the NOT NULL constraint of the final schema. -/
def linkInsertContext (db3 : DB) (wordSourceID : Int) (ctxID : Int) :
    DB × Option DBErr :=
  if contextCount db3 wordSourceID < 5 then
    match nullableInt64 ctxID with
    | none => (db3, some .notNullViolation)
    | some sid =>
      if db3.wordContexts.any fun r =>
          r.wordSourceId = wordSourceID ∧ r.sentenceId = sid then
        (db3, none)
      else
        ({ db3 with wordContexts := db3.wordContexts ++ [⟨wordSourceID, sid⟩] },
          none)
  else (db3, none)

/-- db.LinkWordToSource (the increment draft matched to the final schema):
validate positive ids and increment ≥ 1, intern the context and example
sentences, run the word_sources upsert, then the capped context insert.  The
returned state carries the writes performed so far also on the error paths,
matching the statements already executed inside the enclosing transaction. -/
def LinkWordToSource (db : DB) (wordID sourceID : Int)
    (context exampleText : String) (incrementAmount : Int) : DB × Option DBErr :=
  if wordID ≤ 0 then (db, some (.invalidInput "wordID must be positive"))
  else if sourceID ≤ 0 then (db, some (.invalidInput "sourceID must be positive"))
  else if incrementAmount < 1 then
    (db, some (.invalidInput "incrementAmount must be positive"))
  else
    let ctxPair := getOrCreateSentence db context
    let exPair := getOrCreateSentence ctxPair.2 exampleText
    match linkUpsertWordSource exPair.2 wordID sourceID ctxPair.1 exPair.1
        incrementAmount with
    | .error e => (exPair.2, some e)
    | .ok (wordSourceID, db3) => linkInsertContext db3 wordSourceID ctxPair.1


/-- An empty database, as produced by InitDB on a fresh file: no rows, all
AUTOINCREMENT counters at 1. -/
def emptyDB : DB := ⟨[], [], [], [], [], 1, 1, 1⟩

/-- db.UpdateSourceProgress: set last_processed_sentence on the source row. -/
def UpdateSourceProgress (db : DB) (sourceID : Int) (index : Int) : DB :=
  { db with
    sources := db.sources.map fun r =>
      if r.id = sourceID then { r with lastProcessedSentence := index } else r }

/-- db.GetSourceProgress as the ingester consumes it: the stored checkpoint,
or −1 when the row cannot be read (Ingest treats the error as −1). -/
def ingestLastProcessed (db : DB) (sourceID : Int) : Int :=
  match db.sources.find? fun r => r.id = sourceID with
  | some r => r.lastProcessedSentence
  | none => -1

/-! ## Batch writer model (pkg/ingest BatchWriter, DB-backed draft)

A `WriteFn` is a callback run inside a transaction.  Its transactional state
is the database `σ`; its ambient state `ρ` captures effects that live outside
the transaction (the ingester's atomic `totalLinks` counter): a rollback
restores `σ` but not `ρ`.  `executeBatch` begins one transaction per batch,
runs the callbacks in submission order, commits on success and rolls the whole
batch back on the first callback error, exactly as `BatchWriter.executeBatch`.
The single committer goroutine processes batches in flush order; `runBW`
executes it to completion, recording for each batch its pre-state, post-state
and error.  The first recorded error is retained (`bw.lastErr`), each failing
batch is reported once through OnError, and Close returns the retained
error. -/

/-- A write callback: transactional state in, transactional state out, plus
the ambient (non-transactional) state and an optional error. -/
def WriteFn (σ ρ E : Type) : Type := σ → ρ → σ × ρ × Option E

/-- Run the callbacks of one batch in order on the open transaction, stopping
at the first error. -/
def runCallbacks {σ ρ E : Type} : List (WriteFn σ ρ E) → σ → ρ → σ × ρ × Option E
  | [], s, r => (s, r, none)
  | w :: ws, s, r =>
    match w s r with
    | (s', r', none) => runCallbacks ws s' r'
    | (s', r', some e) => (s', r', some e)

/-- BatchWriter.executeBatch: begin a transaction, run the callbacks, commit on
success; on any callback error the whole batch is rolled back, so the
transactional state reverts to the batch's pre-state while ambient effects
survive. -/
def executeBatch {σ ρ E : Type} (batch : List (WriteFn σ ρ E)) (s : σ) (r : ρ) :
    σ × ρ × Option E :=
  match runCallbacks batch s r with
  | (s', r', none) => (s', r', none)
  | (_, r', some e) => (s, r', some e)

/-- Record of one committed or rolled-back batch: transactional pre-state,
post-state, and the error surfaced, if any. -/
structure BatchRec (σ E : Type) where
  pre : σ
  post : σ
  err : Option E

/-- The committer goroutine run to completion over the enqueued batches, in
order, also collecting the per-batch records. -/
def runBW {σ ρ E : Type} :
    List (List (WriteFn σ ρ E)) → σ → ρ → σ × ρ × List (BatchRec σ E)
  | [], s, r => (s, r, [])
  | b :: bs, s, r =>
    match executeBatch b s r with
    | (s', r', e) =>
      match runBW bs s' r' with
      | (s'', r'', recs) => (s'', r'', ⟨s, s', e⟩ :: recs)

/-- The OnError reports of a run: the committer invokes OnError once per
failing batch, in order. -/
def bwReports {σ E : Type} (recs : List (BatchRec σ E)) : List E :=
  recs.filterMap (·.err)

/-- The error BatchWriter.Close returns: the first asynchronous error
retained in `bw.lastErr`, or nil. -/
def bwCloseResult {σ E : Type} (recs : List (BatchRec σ E)) : Option E :=
  (bwReports recs).head?

/-! ## The ingester's per-sentence write callback and pipeline runs
(Ingester.Ingest, consumer goroutine)

The consumer drains results in contiguous index order and submits one callback
per sentence.  The callback upserts each word, links it to the source with the
in-sentence count as the increment, atomically adds the count to the
`totalLinks` counter, and finally checkpoints `last_processed_sentence` to the
sentence's index — all inside whatever transaction the batch writer runs the
callback in.  Batch boundaries are decided by capacity and by the 100 ms flush
timer, so a pipeline execution is quantified over partitions of the callback
sequence into consecutive batches. -/

/-- The inner word loop of the write callback, followed by the progress
checkpoint.  The ambient state is the atomic `totalLinks` counter: it is
incremented after each successful link and is not rolled back with the
transaction. -/
def writeWords (sourceID : Int) (item : ProcessedSentence) :
    List WordData → DB → Int → DB × Int × Option DBErr
  | [], db, links => (UpdateSourceProgress db sourceID (Int.ofNat item.Index), links, none)
  | w :: ws, db, links =>
    match CreateOrGetWord db w.Word w.Word w.Reading w.Definitions "ja" with
    | .error e => (db, links, some e)
    | .ok (wordID, db1) =>
      match LinkWordToSource db1 wordID sourceID item.Sentence item.Sentence
          (Int.ofNat w.Count) with
      | (db2, some e) => (db2, links, some e)
      | (db2, none) => writeWords sourceID item ws db2 (links + Int.ofNat w.Count)

/-- The write callback the consumer submits for one reordered result. -/
def sentenceWriteFn (sourceID : Int) (item : ProcessedSentence) :
    WriteFn DB Int DBErr :=
  fun db links => writeWords sourceID item item.Words db links

/-- A pipeline run: the committer processes the given batches of per-sentence
results, each batch one transaction, threading the database and the
`totalLinks` counter. -/
def runIngestBatches (sourceID : Int) (bs : List (List ProcessedSentence))
    (db : DB) (links : Int) : DB × Int × List (BatchRec DB DBErr) :=
  runBW (bs.map fun b => b.map (sentenceWriteFn sourceID)) db links

/-- Sum of the occurrence counts durably recorded in word_sources for one
source: the quantity the spec calls the durably committed links. -/
def durableLinksSum (db : DB) (sourceID : Int) : Int :=
  ((db.wordSources.filter fun r => r.sourceId = sourceID).map
    (·.occurrenceCount)).sum

/-! ## Worker pool model (pkg/ingest WorkerPool)

`Submit` takes `closeMu`, checks `closed`, and sends on the `jobs` channel
while still holding the mutex; `Close` takes `closeMu`, marks `closed`, and
closes the channel.  The transition system below has one tracked submitter and
one tracked closer; its atomic steps are exactly the mutex-protected sections,
except that the channel send is a separate step because it can block on a full
queue while the mutex is held.  A send that executes while the channel is
closed panics; `panicked` records that event. -/

/-- Result a Submit call returns. -/
inductive SubmitRes where
  | ok
  | closedErr
deriving DecidableEq, Repr

/-- Phase of the tracked Submit call: not yet started, holding the mutex and
blocked on the channel send, or returned. -/
inductive SubPhase where
  | idle
  | sending
  | done (r : SubmitRes)
deriving DecidableEq, Repr

/-- Phase of the tracked Close call. -/
inductive ClsPhase where
  | idle
  | done
deriving DecidableEq, Repr

/-- State of the worker pool system: queue length and capacity, the `closed`
flag, whether the jobs channel has been closed, the number of running workers
able to receive, the phases of the tracked Submit and Close, and whether a
send-on-closed-channel panic has occurred. -/
structure PoolSt where
  qlen : Nat
  qcap : Nat
  closed : Bool
  chanClosed : Bool
  workers : Nat
  sub : SubPhase
  cls : ClsPhase
  panicked : Bool
deriving DecidableEq, Repr

/-- Interleaved small-step semantics of the pool.  `subAcquire` is Submit's
mutex acquisition and closed-check (returning Closed without sending when the
pool is closed); `subSend` is the channel send, enabled only when the queue
has room, and panicking if the channel is closed; `closeRun` is Close's whole
critical section, enabled only while no Submit holds the mutex; `workerTake`
is a worker receiving a job. -/
inductive PoolStep : PoolSt → PoolSt → Prop where
  | subAcquire (S : PoolSt) (h : S.sub = .idle) (hc : S.closed = true) :
      PoolStep S { S with sub := .done .closedErr }
  | subEnter (S : PoolSt) (h : S.sub = .idle) (hc : S.closed = false) :
      PoolStep S { S with sub := .sending }
  | subSend (S : PoolSt) (h : S.sub = .sending) (hq : S.qlen < S.qcap)
      (hch : S.chanClosed = false) :
      PoolStep S { S with qlen := S.qlen + 1, sub := .done .ok }
  | subSendPanic (S : PoolSt) (h : S.sub = .sending) (hq : S.qlen < S.qcap)
      (hch : S.chanClosed = true) :
      PoolStep S { S with panicked := true }
  | closeRun (S : PoolSt) (h : S.cls = .idle) (hmu : S.sub ≠ .sending) :
      PoolStep S { S with closed := true, chanClosed := true, cls := .done }
  | workerTake (S : PoolSt) (hw : 0 < S.workers) (hq : 0 < S.qlen) :
      PoolStep S { S with qlen := S.qlen - 1 }

/-- Decidable enabledness of any step from a state. -/
def poolStepEnabled (S : PoolSt) : Bool :=
  (S.sub == .idle) ||
  (S.sub == .sending && decide (S.qlen < S.qcap)) ||
  (S.cls == .idle && !(S.sub == .sending)) ||
  (decide (0 < S.workers) && decide (0 < S.qlen))

/-- The state of TestSubmitRecoversFromCloseRace just before Close is called:
NewWorkerPool(1, 1) with no workers started, the queue filled by a first
Submit, and a second Submit holding the mutex, blocked sending on the full
queue; the test then calls Close. -/
def poolRaceState : PoolSt :=
  { qlen := 1, qcap := 1, closed := false, chanClosed := false, workers := 0,
    sub := .sending, cls := .idle, panicked := false }

/-- The same configuration one step earlier, before the second Submit takes
the mutex. -/
def poolRaceInit : PoolSt :=
  { poolRaceState with sub := .idle }


/-! ## Auxiliary notions and concrete pipeline scenarios -/

/-- The (word_id, source_id) pairs of the link table; the schema declares them
UNIQUE. -/
def wsPairs (db : DB) : List (Int × Int) :=
  db.wordSources.map fun r => (r.wordId, r.sourceId)

/-- The source row with the given id can be read. -/
def srcExists (db : DB) (sid : Int) : Prop :=
  (db.sources.find? fun r => r.id = sid).isSome = true

/-- Total occurrence count of one result's words. -/
def wsTotal (ws : List WordData) : Nat :=
  (ws.map (·.Count)).sum

/-- Total occurrence count across a list of results. -/
def itemsTotal (items : List ProcessedSentence) : Nat :=
  (items.map fun it => wsTotal it.Words).sum

/-- A noun token for the concrete scenarios. -/
def cexToken (surface base reading : String) : Token :=
  ⟨surface, base, reading, ["名詞"], "名詞"⟩

/-- A database holding one source row with checkpoint −1, as the ingestion
driver prepares before Ingest runs. -/
def cexDB : DB := { emptyDB with sources := [⟨1, -1⟩] }

/-- Sentence 0 of the failing scenario: a normal noun followed by a token with
an empty surface and base form, whose canonical word is the empty string; the
write callback for this sentence fails inside CreateOrGetWord. -/
def cexSent0 : Sentence := ⟨"犬だ", [cexToken "犬" "犬" "イヌ", cexToken "" "" ""]⟩

/-- Sentence 1 of the failing scenario: a single normal noun; its write
callback succeeds. -/
def cexSent1 : Sentence := ⟨"猫だ", [cexToken "猫" "猫" "ネコ"]⟩

/-- The two-batch pipeline run of the failing scenario: sentence 0 and
sentence 1 each in their own batch (the 100 ms flush timer makes any batch
boundary reachable), no dictionary configured. -/
def cexRun : DB × Int × List (BatchRec DB DBErr) :=
  runIngestBatches 1 [[processSentence none 0 cexSent0],
    [processSentence none 1 cexSent1]] cexDB 0

/-- The single-batch run of sentence 0 alone, for the totalLinks
counterexample. -/
def cexRunSingle : DB × Int × List (BatchRec DB DBErr) :=
  runIngestBatches 1 [[processSentence none 0 cexSent0]] cexDB 0

/-- The stored pronunciation of the word row with a given id. -/
def wordPron (db : DB) (id : Int) : Option String :=
  (db.words.find? fun r => r.id = id).map (·.pronunciation)

/-- The stored definitions of the word row with a given id. -/
def wordDefs (db : DB) (id : Int) : Option String :=
  (db.words.find? fun r => r.id = id).map (·.definitions)

/-! ## Theorems -/

/-- Auxiliary: discarded tokens are invisible to the aggregation fold. -/
theorem foldl_aggStep_filter (toks : List Token) :
    ∀ acc : List WordAgg,
      (toks.filter fun t => !discardToken t).foldl aggStep acc =
        toks.foldl aggStep acc := by
  induction toks with
  | nil => intro acc; rfl
  | cons t ts ih =>
    intro acc
    by_cases h : discardToken t
    · have hstep : aggStep acc t = acc := by simp [aggStep, h]
      simp [List.filter_cons, h, List.foldl_cons, hstep, ih]
    · simp [List.filter_cons, h, List.foldl_cons, ih]

/-- C10: Importer.Lookup never fails: the error component is always nil, and
absence of matches is a nil entry list (the list the lookup computes), not an
error. -/
theorem c10_lookup_never_errs (entries : List JMdictEntry)
    (word lem pron : String) :
    (Lookup entries word lem pron).2 = none ∧
    (Lookup entries word lem pron).1 = findMatches entries word lem pron := by
  unfold Lookup
  by_cases h : (findMatches entries word lem pron).isEmpty
  · rw [List.isEmpty_iff] at h
    simp [h]
  · simp [h]

/-- C8: every token whose primary part of speech is 記号, 補助記号, 助詞 or
助動詞, or whose second part-of-speech label is 数, or whose surface matches
the ASCII alphanumeric/whitespace/punctuation regex, is discarded by
processSentence: deleting all such tokens from a sentence leaves the emitted
result (hence every word row derived from it) unchanged. -/
theorem c8_filtered_tokens_produce_no_word
    (dict : Option (List JMdictEntry)) (idx : Nat) (txt : String)
    (toks : List Token) :
    processSentence dict idx ⟨txt, toks⟩ =
      processSentence dict idx ⟨txt, toks.filter fun t => !discardToken t⟩ := by
  unfold processSentence aggregateTokens
  rw [foldl_aggStep_filter]

/-- C7: LinkWordToSource called with a non-positive wordID, a non-positive
sourceID, or a non-positive increment fails with an InvalidInput error and
performs no write: the returned state is the input state. -/
theorem c7_link_invalid_input_no_write (db : DB) (wordID sourceID : Int)
    (ctx ex : String) (inc : Int)
    (h : wordID ≤ 0 ∨ sourceID ≤ 0 ∨ inc < 1) :
    ∃ msg, LinkWordToSource db wordID sourceID ctx ex inc =
      (db, some (DBErr.invalidInput msg)) := by
  unfold LinkWordToSource
  by_cases hw : wordID ≤ 0
  · exact ⟨"wordID must be positive", by simp [hw]⟩
  · by_cases hs : sourceID ≤ 0
    · exact ⟨"sourceID must be positive", by simp [hw, hs]⟩
    · have hi : inc < 1 := by tauto
      exact ⟨"incrementAmount must be positive", by simp [hw, hs, hi]⟩

/-- Soundness of the enabledness check: every possible step starts from a
state the check accepts. -/
theorem poolStep_enabled_of_step {S S' : PoolSt} (h : PoolStep S S') :
    poolStepEnabled S = true := by
  cases h with
  | subAcquire h hc => simp [poolStepEnabled, h]
  | subEnter h hc => simp [poolStepEnabled, h]
  | subSend h hq hch => simp [poolStepEnabled, h, hq]
  | subSendPanic h hq hch => simp [poolStepEnabled, h, hq]
  | closeRun h hmu => simp [poolStepEnabled, h, hmu]
  | workerTake hw hq => simp [poolStepEnabled, hw, hq]

/-- C9 (evidence of the divergence): in the configuration of
TestSubmitRecoversFromCloseRace — NewWorkerPool(1, 1), workers not started,
the queue filled by a first Submit, a second Submit holding closeMu and
blocked sending on the full queue, Close called — the system reaches a state
with no enabled step: the blocked Submit still holds the mutex (sub is
`sending`), so Close can never take it to close the queue, no worker drains
the queue, and the Submit can never complete.  The blocked Submit therefore
never returns `ErrPoolClosed` as the pool's own test expects (it never returns
at all), though it also never panics. -/
theorem c9_worker_pool_close_race_deadlock :
    PoolStep poolRaceInit poolRaceState ∧
    poolStepEnabled poolRaceState = false ∧
    poolRaceState.sub = SubPhase.sending ∧
    poolRaceState.cls = ClsPhase.idle :=
  ⟨PoolStep.subEnter poolRaceInit rfl rfl, by decide, rfl, rfl⟩

/-- Membership from an index hit. -/
theorem memOfIdx {α : Type} {l : List α} {n : Nat} {a : α}
    (h : l[n]? = some a) : a ∈ l := by
  induction l generalizing n with
  | nil => simp at h
  | cons x xs ih =>
    cases n with
    | zero =>
      rw [List.getElem?_cons_zero] at h
      have hx := Option.some.inj h
      subst hx
      exact List.mem_cons_self _ _
    | succ n =>
      rw [List.getElem?_cons_succ] at h
      exact List.mem_cons_of_mem x (ih h)

/-- Rollback: when a callback of a batch errs, executeBatch returns the
batch's transactional pre-state. -/
theorem executeBatch_rollback {σ ρ E : Type} {batch : List (WriteFn σ ρ E)}
    {s : σ} {r : ρ} {e : E} (h : (executeBatch batch s r).2.2 = some e) :
    (executeBatch batch s r).1 = s := by
  unfold executeBatch at *
  rcases hrun : runCallbacks batch s r with ⟨s', r', err⟩
  cases err <;> simp [hrun] at h ⊢

/-- Each failing batch contributes exactly one OnError report; successful
batches contribute none. -/
theorem bwReports_length {σ E : Type} (recs : List (BatchRec σ E)) :
    (bwReports recs).length =
      (recs.filter fun rec => rec.err.isSome).length := by
  induction recs with
  | nil => rfl
  | cons rec recs ih =>
    rcases rec with ⟨pre, post, err⟩
    cases err <;> simp [bwReports, List.filterMap_cons, List.filter_cons] at * <;>
      simpa using ih

/-- C4: if some callback in a batch returns an error, the batch writer rolls
that batch's whole transaction back (its transactional post-state equals its
pre-state, so none of the batch's writes are visible), the committer reports
through OnError exactly once per failing batch, and Close afterwards returns a
non-nil error, namely the first asynchronous error observed. -/
theorem c4_batch_error_rollback_report_close {σ ρ E : Type}
    (bs : List (List (WriteFn σ ρ E))) (s : σ) (r : ρ) (i : Nat)
    (pre post : σ) (e : E)
    (hrec : (runBW bs s r).2.2[i]? = some ⟨pre, post, some e⟩) :
    post = pre ∧
    (bwReports (runBW bs s r).2.2).length =
      ((runBW bs s r).2.2.filter fun rec => rec.err.isSome).length ∧
    (bwCloseResult (runBW bs s r).2.2).isSome = true ∧
    bwCloseResult (runBW bs s r).2.2 = (bwReports (runBW bs s r).2.2).head? := by
  refine ⟨?_, bwReports_length _, ?_, rfl⟩
  · induction bs generalizing s r i with
    | nil => simp [runBW] at hrec
    | cons b bs ih =>
      rcases hexec : executeBatch b s r with ⟨s', r', err⟩
      have hrec' : (⟨s, s', err⟩ :: (runBW bs s' r').2.2 :
          List (BatchRec σ E))[i]? = some ⟨pre, post, some e⟩ := by
        simpa [runBW, hexec] using hrec
      cases i with
      | zero =>
        rw [List.getElem?_cons_zero] at hrec'
        have h3 := Option.some.inj hrec'
        rw [BatchRec.mk.injEq] at h3
        obtain ⟨h1, h2, h3⟩ := h3
        subst h3
        have hb : (executeBatch b s r).2.2 = some e := by rw [hexec]
        have hro := executeBatch_rollback hb
        rw [hexec] at hro
        rw [← h2, ← h1]
        exact hro
      | succ i =>
        rw [List.getElem?_cons_succ] at hrec'
        exact ih s' r' i hrec'
  · have hmem : (⟨pre, post, some e⟩ : BatchRec σ E) ∈ (runBW bs s r).2.2 :=
      memOfIdx hrec
    have hin : e ∈ bwReports (runBW bs s r).2.2 := by
      rw [bwReports, List.mem_filterMap]
      exact ⟨_, hmem, rfl⟩
    rw [bwCloseResult, List.head?_isSome]
    exact List.ne_nil_of_mem hin

/-- Witness for C4: a single batch whose only callback writes and then errs;
the batch rolls back to the pre-state 0, one report is made, Close returns the
error. -/
theorem c4_batch_error_rollback_report_close_witness :
    (runBW [[fun (s : Nat) (r : Nat) => (s + 1, r, some 7)]] 0 0).2.2[0]? =
      some ⟨0, 0, some 7⟩ ∧
    (0 = 0 ∧
      (bwReports (runBW [[fun (s : Nat) (r : Nat) =>
        (s + 1, r, some 7)]] 0 0).2.2).length =
        ((runBW [[fun (s : Nat) (r : Nat) =>
          (s + 1, r, some 7)]] 0 0).2.2.filter fun rec => rec.err.isSome).length ∧
      (bwCloseResult (runBW [[fun (s : Nat) (r : Nat) =>
        (s + 1, r, some 7)]] 0 0).2.2).isSome = true ∧
      bwCloseResult (runBW [[fun (s : Nat) (r : Nat) =>
        (s + 1, r, some 7)]] 0 0).2.2 =
        (bwReports (runBW [[fun (s : Nat) (r : Nat) =>
          (s + 1, r, some 7)]] 0 0).2.2).head?) :=
  ⟨rfl, c4_batch_error_rollback_report_close
    [[fun (s : Nat) (r : Nat) => (s + 1, r, some 7)]] 0 0 0 0 0 7 rfl⟩

/-- Sentence interning touches only the sentences table and its counter. -/
theorem getOrCreateSentence_preserves (db : DB) (t : String) :
    ((getOrCreateSentence db t).2).wordContexts = db.wordContexts ∧
    ((getOrCreateSentence db t).2).wordSources = db.wordSources ∧
    ((getOrCreateSentence db t).2).words = db.words ∧
    ((getOrCreateSentence db t).2).sources = db.sources := by
  unfold getOrCreateSentence
  by_cases h : goTrimSpace t = ""
  · simp [h]
  · simp only [h, if_false]
    cases hf : db.sentences.find? fun r => r.text = goTrimSpace t <;> simp [hf]

/-- A successful word_sources upsert leaves word_contexts untouched. -/
theorem linkUpsertWordSource_wordContexts {db2 : DB} {wid sid cid eid inc : Int}
    {wsid : Int} {db3 : DB}
    (h : linkUpsertWordSource db2 wid sid cid eid inc = .ok (wsid, db3)) :
    db3.wordContexts = db2.wordContexts := by
  unfold linkUpsertWordSource at h
  cases hf : db2.wordSources.find? fun r => r.wordId = wid ∧ r.sourceId = sid with
  | some r =>
    rw [hf] at h
    cases h
    rfl
  | none =>
    rw [hf] at h
    by_cases hfk : (db2.words.any fun r => r.id = wid) ∧
        (db2.sources.any fun r => r.id = sid)
    · rw [if_pos hfk] at h
      cases h
      rfl
    · rw [if_neg hfk] at h
      cases h

/-- The capped context insert leaves the table unchanged or appends a single
pair that is not yet present, and only while the count is below 5. -/
theorem linkInsertContext_spec (db3 : DB) (wsid cid : Int) :
    (linkInsertContext db3 wsid cid).1.wordContexts = db3.wordContexts ∨
    ∃ sid : Int, (⟨wsid, sid⟩ : WordContextRow) ∉ db3.wordContexts ∧
      contextCount db3 wsid < 5 ∧
      (linkInsertContext db3 wsid cid).1.wordContexts =
        db3.wordContexts ++ [⟨wsid, sid⟩] := by
  unfold linkInsertContext
  by_cases h5 : contextCount db3 wsid < 5
  · rw [if_pos h5]
    cases hn : nullableInt64 cid with
    | none => left; rfl
    | some sid =>
      simp only [hn]
      by_cases hdup : (db3.wordContexts.any fun r =>
          decide (r.wordSourceId = wsid ∧ r.sentenceId = sid)) = true
      · left; rw [if_pos hdup]
      · right
        refine ⟨sid, ?_, h5, by rw [if_neg hdup]⟩
        intro hm
        apply hdup
        rw [List.any_eq_true]
        exact ⟨_, hm, by simp⟩
  · left; rw [if_neg h5]

/-- The capped context insert errs only when handed a NULL sentence id. -/
theorem linkInsertContext_err_none (db3 : DB) (wsid cid : Int) (hcid : cid ≠ 0) :
    (linkInsertContext db3 wsid cid).2 = none := by
  unfold linkInsertContext nullableInt64
  by_cases h5 : contextCount db3 wsid < 5
  · rw [if_pos h5, if_neg hcid]
    split
    next heq => exact absurd heq (Option.some_ne_none cid)
    next sid heq => split <;> rfl
  · rw [if_neg h5]

/-- The context count only depends on the word_contexts table. -/
theorem contextCount_congr {a b : DB} (h : a.wordContexts = b.wordContexts)
    (w : Int) : contextCount a w = contextCount b w := by
  unfold contextCount
  rw [h]

/-- Interning a non-empty text never returns the NULL sentinel when the
sentence ids in the database are non-zero (the AUTOINCREMENT invariant). -/
theorem getOrCreateSentence_fst_ne_zero (db : DB) (t : String)
    (h : goTrimSpace t ≠ "") (hsent : ∀ r ∈ db.sentences, r.id ≠ 0)
    (hnext : db.nextSentenceId ≠ 0) : (getOrCreateSentence db t).1 ≠ 0 := by
  unfold getOrCreateSentence
  simp only [h, if_false]
  cases hf : db.sentences.find? fun r => r.text = goTrimSpace t with
  | some r =>
    simpa using hsent r (List.mem_of_find?_eq_some hf)
  | none => simpa using hnext

/-- Case analysis of one whole LinkWordToSource call on the word_contexts
table: it is unchanged, or a single absent pair is appended while its row is
below the cap. -/
theorem link_wordContexts_cases (db : DB) (wordID sourceID : Int)
    (ctx ex : String) (inc : Int) :
    (LinkWordToSource db wordID sourceID ctx ex inc).1.wordContexts =
      db.wordContexts ∨
    ∃ p : WordContextRow, p ∉ db.wordContexts ∧
      contextCount db p.wordSourceId < 5 ∧
      (LinkWordToSource db wordID sourceID ctx ex inc).1.wordContexts =
        db.wordContexts ++ [p] := by
  unfold LinkWordToSource
  by_cases hw : wordID ≤ 0
  · left; simp [hw]
  · by_cases hs : sourceID ≤ 0
    · left; simp [hw, hs]
    · by_cases hi : inc < 1
      · left; simp [hw, hs, hi]
      · simp only [hw, hs, hi, if_false]
        have hc1 := getOrCreateSentence_preserves db ctx
        have hc2 := getOrCreateSentence_preserves (getOrCreateSentence db ctx).2 ex
        have hchain : ((getOrCreateSentence (getOrCreateSentence db ctx).2 ex).2).wordContexts =
            db.wordContexts := by rw [hc2.1, hc1.1]
        cases hup : linkUpsertWordSource
            (getOrCreateSentence (getOrCreateSentence db ctx).2 ex).2 wordID sourceID
            (getOrCreateSentence db ctx).1
            (getOrCreateSentence (getOrCreateSentence db ctx).2 ex).1 inc with
        | error e => left; simp [hup, hchain]
        | ok v =>
          rcases v with ⟨wsid, db3⟩
          have hdb3 : db3.wordContexts = db.wordContexts := by
            rw [linkUpsertWordSource_wordContexts hup, hchain]
          rcases linkInsertContext_spec db3 wsid (getOrCreateSentence db ctx).1 with
            hcase | ⟨sid, hnotin, hlt, happ⟩
          · left
            simp only [hup]
            rw [hcase, hdb3]
          · right
            refine ⟨⟨wsid, sid⟩, ?_, ?_, ?_⟩
            · rw [← hdb3]; exact hnotin
            · rw [← contextCount_congr hdb3]; exact hlt
            · simp only [hup]
              rw [happ, hdb3]

/-- Context count over an append of one row. -/
theorem contextCount_append (l : List WordContextRow) (p : WordContextRow)
    (w : Int) :
    ((l ++ [p]).filter fun r => r.wordSourceId = w).length =
      (l.filter fun r => r.wordSourceId = w).length +
        (if p.wordSourceId = w then 1 else 0) := by
  rw [List.filter_append]
  by_cases h : p.wordSourceId = w <;> simp [h]

/-- LinkWordToSource succeeds on an existing link row with a non-empty
context: in particular a repeated (word_source_id, sentence) pair is absorbed
without error. -/
theorem link_success_on_existing_row (db : DB) (wordID sourceID : Int)
    (ctx ex : String) (inc : Int)
    (hw : 0 < wordID) (hs : 0 < sourceID) (hi : 1 ≤ inc)
    (hctx : goTrimSpace ctx ≠ "")
    (hsent : ∀ r ∈ db.sentences, r.id ≠ 0) (hnext : db.nextSentenceId ≠ 0)
    (hrow : ∃ r ∈ db.wordSources, r.wordId = wordID ∧ r.sourceId = sourceID) :
    (LinkWordToSource db wordID sourceID ctx ex inc).2 = none := by
  unfold LinkWordToSource
  have hw' : ¬wordID ≤ 0 := not_le.mpr hw
  have hs' : ¬sourceID ≤ 0 := not_le.mpr hs
  have hi' : ¬inc < 1 := not_lt.mpr hi
  simp only [hw', hs', hi', if_false]
  have hc1 := getOrCreateSentence_preserves db ctx
  have hc2 := getOrCreateSentence_preserves (getOrCreateSentence db ctx).2 ex
  have hws : ((getOrCreateSentence (getOrCreateSentence db ctx).2 ex).2).wordSources =
      db.wordSources := by rw [hc2.2.1, hc1.2.1]
  cases hup : linkUpsertWordSource
      (getOrCreateSentence (getOrCreateSentence db ctx).2 ex).2 wordID sourceID
      (getOrCreateSentence db ctx).1
      (getOrCreateSentence (getOrCreateSentence db ctx).2 ex).1 inc with
  | error e =>
    exfalso
    unfold linkUpsertWordSource at hup
    cases hf : ((getOrCreateSentence (getOrCreateSentence db ctx).2
        ex).2).wordSources.find? fun r =>
        r.wordId = wordID ∧ r.sourceId = sourceID with
    | some r => rw [hf] at hup; cases hup
    | none =>
      rw [List.find?_eq_none] at hf
      obtain ⟨r, hrmem, hr1, hr2⟩ := hrow
      have := hf r (by rw [hws]; exact hrmem)
      simp [hr1, hr2] at this
  | ok v =>
    rcases v with ⟨wsid, db3⟩
    simp only [hup]
    exact linkInsertContext_err_none db3 wsid (getOrCreateSentence db ctx).1
      (getOrCreateSentence_fst_ne_zero db ctx hctx hsent hnext)

/-- C5: the word_contexts cap.  Under the invariant that every word_sources
row holds at most 5 contexts, any LinkWordToSource call (a) preserves the
invariant, (b) changes a row's context count only by inserting one new row
while the count is strictly below 5, and (c) succeeds when called with valid
arguments, a non-empty context and an existing link row, so a duplicate
(word_source_id, sentence) pair for that row is absorbed without error. -/
theorem c5_context_cap (db : DB) (wordID sourceID : Int) (ctx ex : String)
    (inc : Int)
    (hinv : ∀ w, contextCount db w ≤ 5)
    (hsent : ∀ r ∈ db.sentences, r.id ≠ 0) (hnext : db.nextSentenceId ≠ 0) :
    (∀ w, contextCount (LinkWordToSource db wordID sourceID ctx ex inc).1 w ≤ 5) ∧
    (∀ w, contextCount (LinkWordToSource db wordID sourceID ctx ex inc).1 w =
        contextCount db w ∨
      (contextCount (LinkWordToSource db wordID sourceID ctx ex inc).1 w =
          contextCount db w + 1 ∧ contextCount db w < 5)) ∧
    (0 < wordID → 0 < sourceID → 1 ≤ inc → goTrimSpace ctx ≠ "" →
      (∃ r ∈ db.wordSources, r.wordId = wordID ∧ r.sourceId = sourceID) →
      (LinkWordToSource db wordID sourceID ctx ex inc).2 = none) := by
  have hcases := link_wordContexts_cases db wordID sourceID ctx ex inc
  have hdelta : ∀ w, contextCount (LinkWordToSource db wordID sourceID ctx ex inc).1 w =
      contextCount db w ∨
      (contextCount (LinkWordToSource db wordID sourceID ctx ex inc).1 w =
        contextCount db w + 1 ∧ contextCount db w < 5) := by
    intro w
    rcases hcases with hsame | ⟨p, _, hlt, happ⟩
    · left; unfold contextCount; rw [hsame]
    · unfold contextCount
      rw [happ, contextCount_append]
      by_cases hpw : p.wordSourceId = w
      · right
        constructor
        · simp [hpw]
        · rw [← hpw]; exact hlt
      · left; simp [hpw]
  refine ⟨?_, hdelta, ?_⟩
  · intro w
    rcases hdelta w with h | ⟨h, hlt⟩
    · rw [h]; exact hinv w
    · rw [h]; omega
  · intro hw hs hi hctx hrow
    exact link_success_on_existing_row db wordID sourceID ctx ex inc
      hw hs hi hctx hsent hnext hrow

/-- Witness for C5 at a concrete input: a first link call on a database with
one word and one source. -/
theorem c5_context_cap_witness :
    (∀ w, contextCount emptyDB w ≤ 5) ∧
    (∀ r ∈ emptyDB.sentences, r.id ≠ 0) ∧
    emptyDB.nextSentenceId ≠ 0 ∧
    ((∀ w, contextCount (LinkWordToSource emptyDB 1 1 "犬" "犬" 1).1 w ≤ 5) ∧
     (∀ w, contextCount (LinkWordToSource emptyDB 1 1 "犬" "犬" 1).1 w =
         contextCount emptyDB w ∨
       (contextCount (LinkWordToSource emptyDB 1 1 "犬" "犬" 1).1 w =
           contextCount emptyDB w + 1 ∧ contextCount emptyDB w < 5)) ∧
     (0 < (1 : Int) → 0 < (1 : Int) → 1 ≤ (1 : Int) → goTrimSpace "犬" ≠ "" →
       (∃ r ∈ emptyDB.wordSources, r.wordId = 1 ∧ r.sourceId = 1) →
       (LinkWordToSource emptyDB 1 1 "犬" "犬" 1).2 = none)) := by
  have hinv : ∀ w, contextCount emptyDB w ≤ 5 := by
    intro w
    unfold contextCount emptyDB
    simp
  have hsent : ∀ r ∈ emptyDB.sentences, r.id ≠ 0 := by
    intro r hr
    simp [emptyDB] at hr
  have hnext : emptyDB.nextSentenceId ≠ 0 := by decide
  exact ⟨hinv, hsent, hnext,
    c5_context_cap emptyDB 1 1 "犬" "犬" 1 hinv hsent hnext⟩

/-- C6: upserting the same (word, lemma, language) triple twice returns the
same row id, and on the second (conflicting) call pronunciation and
definitions are overwritten only by non-empty incoming values; an empty value
leaves the stored value unchanged.  The hypotheses are the AUTOINCREMENT
invariants of the words table: distinct ids, all below the next id. -/
theorem c6_upsert_word_same_id_coalesce (db : DB)
    (word lem r1 d1 lang r2 d2 : String)
    (htrim : goTrimSpace word ≠ "")
    (hids : (db.words.map (·.id)).Nodup)
    (hfresh : ∀ r ∈ db.words, r.id < db.nextWordId) :
    ∃ id db1 db2 p1 dd1,
      CreateOrGetWord db word lem r1 d1 lang = .ok (id, db1) ∧
      CreateOrGetWord db1 word lem r2 d2 lang = .ok (id, db2) ∧
      wordPron db1 id = some p1 ∧ wordDefs db1 id = some dd1 ∧
      wordPron db2 id = some (if r2 = "" then p1 else r2) ∧
      wordDefs db2 id = some (if d2 = "" then dd1 else d2) := by
  have hkey_u : ∀ (rd dd : String) (x : WordRow),
      wordKey (goTrimSpace word) lem lang
        (updateWordRow rd dd (goTrimSpace word) lem lang x) =
      wordKey (goTrimSpace word) lem lang x := by
    intro rd dd x
    unfold updateWordRow
    by_cases h : wordKey (goTrimSpace word) lem lang x
    · rw [if_pos h, h]
      unfold wordKey at h ⊢
      simp_all
    · rw [if_neg (by simp [h])]
  have hid_u : ∀ (rd dd : String) (x : WordRow),
      (updateWordRow rd dd (goTrimSpace word) lem lang x).id = x.id := by
    intro rd dd x
    unfold updateWordRow
    split <;> rfl
  have hmapfind : ∀ (rd dd : String) (l : List WordRow),
      (l.map (updateWordRow rd dd (goTrimSpace word) lem lang)).find?
        (wordKey (goTrimSpace word) lem lang) =
      (l.find? (wordKey (goTrimSpace word) lem lang)).map (updateWordRow rd dd (goTrimSpace word) lem lang) := by
    intro rd dd l
    rw [List.find?_map]
    have hpq : (wordKey (goTrimSpace word) lem lang ∘
        updateWordRow rd dd (goTrimSpace word) lem lang) =
        wordKey (goTrimSpace word) lem lang :=
      funext fun x => hkey_u rd dd x
    rw [hpq]
  have hmapfindid : ∀ (rd dd : String) (l : List WordRow) (i : Int),
      (l.map (updateWordRow rd dd (goTrimSpace word) lem lang)).find?
        (fun x => x.id = i) =
      (l.find? fun x => x.id = i).map (updateWordRow rd dd (goTrimSpace word) lem lang) := by
    intro rd dd l i
    rw [List.find?_map]
    have hpq : ((fun x => decide (x.id = i)) ∘
        updateWordRow rd dd (goTrimSpace word) lem lang) =
        fun x : WordRow => decide (x.id = i) :=
      funext fun x => by simp [hid_u rd dd x]
    rw [hpq]
  cases hf : db.words.find? (wordKey (goTrimSpace word) lem lang) with
  | some r =>
    have hkr : wordKey (goTrimSpace word) lem lang r = true := List.find?_some hf
    have hrmem := List.mem_of_find?_eq_some hf
    have idfind0 : db.words.find? (fun x => x.id = r.id) = some r := by
      cases hq : db.words.find? fun x => decide (x.id = r.id) with
      | none =>
        exfalso
        have := List.find?_eq_none.mp hq r hrmem
        simp at this
      | some s =>
        have hsmem := List.mem_of_find?_eq_some hq
        have hsid : s.id = r.id := by simpa using List.find?_some hq
        have hsr : s = r := List.inj_on_of_nodup_map hids hsmem hrmem hsid
        rw [hsr]
    have hu1r : updateWordRow r1 d1 (goTrimSpace word) lem lang r =
        { r with
          pronunciation := if r1 = "" then r.pronunciation else r1
          definitions := if d1 = "" then r.definitions else d1 } := by
      unfold updateWordRow
      rw [if_pos hkr]
    have hkr1 : wordKey (goTrimSpace word) lem lang
        { r with
          pronunciation := if r1 = "" then r.pronunciation else r1
          definitions := if d1 = "" then r.definitions else d1 } = true := by
      unfold wordKey at hkr ⊢
      simpa using hkr
    have hA : CreateOrGetWord db word lem r1 d1 lang = .ok (r.id,
        { db with words := db.words.map (updateWordRow r1 d1 (goTrimSpace word) lem lang) }) := by
      unfold CreateOrGetWord
      rw [if_neg htrim, hf]
    have hB : CreateOrGetWord
        { db with words := db.words.map (updateWordRow r1 d1 (goTrimSpace word) lem lang) }
        word lem r2 d2 lang = .ok (r.id,
        { db with words := (db.words.map (updateWordRow r1 d1 (goTrimSpace word) lem lang)).map (updateWordRow r2 d2 (goTrimSpace word) lem lang) }) := by
      unfold CreateOrGetWord
      rw [if_neg htrim]
      simp only
      rw [hmapfind r1 d1 db.words, hf, Option.map_some']
      simp only [hid_u r1 d1 r]
    have hC : wordPron
        { db with words := db.words.map (updateWordRow r1 d1 (goTrimSpace word) lem lang) } r.id =
        some (if r1 = "" then r.pronunciation else r1) := by
      unfold wordPron
      simp only
      rw [hmapfindid r1 d1 db.words r.id, idfind0, Option.map_some', hu1r]
      rfl
    have hD : wordDefs
        { db with words := db.words.map (updateWordRow r1 d1 (goTrimSpace word) lem lang) } r.id =
        some (if d1 = "" then r.definitions else d1) := by
      unfold wordDefs
      simp only
      rw [hmapfindid r1 d1 db.words r.id, idfind0, Option.map_some', hu1r]
      rfl
    have hE : wordPron
        { db with words := (db.words.map (updateWordRow r1 d1 (goTrimSpace word) lem lang)).map (updateWordRow r2 d2 (goTrimSpace word) lem lang) } r.id =
        some (if r2 = "" then (if r1 = "" then r.pronunciation else r1)
          else r2) := by
      unfold wordPron
      simp only
      rw [hmapfindid r2 d2 _ r.id, hmapfindid r1 d1 db.words r.id, idfind0,
        Option.map_some', Option.map_some', hu1r]
      unfold updateWordRow
      rw [if_pos hkr1]
      rfl
    have hF : wordDefs
        { db with words := (db.words.map (updateWordRow r1 d1 (goTrimSpace word) lem lang)).map (updateWordRow r2 d2 (goTrimSpace word) lem lang) } r.id =
        some (if d2 = "" then (if d1 = "" then r.definitions else d1)
          else d2) := by
      unfold wordDefs
      simp only
      rw [hmapfindid r2 d2 _ r.id, hmapfindid r1 d1 db.words r.id, idfind0,
        Option.map_some', Option.map_some', hu1r]
      unfold updateWordRow
      rw [if_pos hkr1]
      rfl
    exact ⟨r.id, _, _, _, _, hA, hB, hC, hD, hE, hF⟩
  | none =>
    have hknrow : wordKey (goTrimSpace word) lem lang
        (⟨db.nextWordId, goTrimSpace word, lem, r1, d1, lang⟩ : WordRow) = true := by
      unfold wordKey
      simp
    have hfind1 : (db.words ++
        [(⟨db.nextWordId, goTrimSpace word, lem, r1, d1, lang⟩ : WordRow)]).find?
          (wordKey (goTrimSpace word) lem lang) =
        some (⟨db.nextWordId, goTrimSpace word, lem, r1, d1, lang⟩ : WordRow) := by
      rw [List.find?_append, hf]
      simp [hknrow]
    have hidnone : db.words.find? (fun x => x.id = db.nextWordId) = none := by
      rw [List.find?_eq_none]
      intro x hx
      have := hfresh x hx
      simp
      omega
    have hidfind1 : (db.words ++
        [(⟨db.nextWordId, goTrimSpace word, lem, r1, d1, lang⟩ : WordRow)]).find?
          (fun x => x.id = db.nextWordId) =
        some (⟨db.nextWordId, goTrimSpace word, lem, r1, d1, lang⟩ : WordRow) := by
      rw [List.find?_append, hidnone]
      simp
    have hA : CreateOrGetWord db word lem r1 d1 lang = .ok (db.nextWordId,
        { db with
          words := db.words ++
            [(⟨db.nextWordId, goTrimSpace word, lem, r1, d1, lang⟩ : WordRow)]
          nextWordId := db.nextWordId + 1 }) := by
      unfold CreateOrGetWord
      rw [if_neg htrim, hf]
    have hB : CreateOrGetWord
        { db with
          words := db.words ++
            [(⟨db.nextWordId, goTrimSpace word, lem, r1, d1, lang⟩ : WordRow)]
          nextWordId := db.nextWordId + 1 }
        word lem r2 d2 lang = .ok (db.nextWordId,
        { db with
          words := (db.words ++
            [(⟨db.nextWordId, goTrimSpace word, lem, r1, d1, lang⟩ : WordRow)]).map (updateWordRow r2 d2 (goTrimSpace word) lem lang)
          nextWordId := db.nextWordId + 1 }) := by
      unfold CreateOrGetWord
      rw [if_neg htrim]
      simp only
      rw [hfind1]
    have hC : wordPron
        { db with
          words := db.words ++
            [(⟨db.nextWordId, goTrimSpace word, lem, r1, d1, lang⟩ : WordRow)]
          nextWordId := db.nextWordId + 1 } db.nextWordId = some r1 := by
      unfold wordPron
      simp only
      rw [hidfind1]
      rfl
    have hD : wordDefs
        { db with
          words := db.words ++
            [(⟨db.nextWordId, goTrimSpace word, lem, r1, d1, lang⟩ : WordRow)]
          nextWordId := db.nextWordId + 1 } db.nextWordId = some d1 := by
      unfold wordDefs
      simp only
      rw [hidfind1]
      rfl
    have hE : wordPron
        { db with
          words := (db.words ++
            [(⟨db.nextWordId, goTrimSpace word, lem, r1, d1, lang⟩ : WordRow)]).map (updateWordRow r2 d2 (goTrimSpace word) lem lang)
          nextWordId := db.nextWordId + 1 } db.nextWordId =
        some (if r2 = "" then r1 else r2) := by
      unfold wordPron
      simp only
      rw [hmapfindid r2 d2 _ db.nextWordId, hidfind1, Option.map_some']
      unfold updateWordRow
      rw [if_pos hknrow]
      rfl
    have hF : wordDefs
        { db with
          words := (db.words ++
            [(⟨db.nextWordId, goTrimSpace word, lem, r1, d1, lang⟩ : WordRow)]).map (updateWordRow r2 d2 (goTrimSpace word) lem lang)
          nextWordId := db.nextWordId + 1 } db.nextWordId =
        some (if d2 = "" then d1 else d2) := by
      unfold wordDefs
      simp only
      rw [hmapfindid r2 d2 _ db.nextWordId, hidfind1, Option.map_some']
      unfold updateWordRow
      rw [if_pos hknrow]
      rfl
    exact ⟨db.nextWordId, _, _, _, _, hA, hB, hC, hD, hE, hF⟩

/-- Witness for C6 at a concrete input: upserting 犬 twice on the empty
database, the second time with an empty reading and a non-empty definitions
value. -/
theorem c6_upsert_word_same_id_coalesce_witness :
    goTrimSpace "犬" ≠ "" ∧
    (emptyDB.words.map (·.id)).Nodup ∧
    (∀ r ∈ emptyDB.words, r.id < emptyDB.nextWordId) ∧
    (∃ id db1 db2 p1 dd1,
      CreateOrGetWord emptyDB "犬" "犬" "いぬ" "defsA" "ja" = .ok (id, db1) ∧
      CreateOrGetWord db1 "犬" "犬" "" "defsB" "ja" = .ok (id, db2) ∧
      wordPron db1 id = some p1 ∧ wordDefs db1 id = some dd1 ∧
      wordPron db2 id = some (if "" = "" then p1 else "") ∧
      wordDefs db2 id = some (if "defsB" = "" then dd1 else "defsB")) := by
  have h1 : goTrimSpace "犬" ≠ "" := by decide
  have h2 : (emptyDB.words.map (·.id)).Nodup := by simp [emptyDB]
  have h3 : ∀ r ∈ emptyDB.words, r.id < emptyDB.nextWordId := by
    intro r hr
    simp [emptyDB] at hr
  exact ⟨h1, h2, h3, c6_upsert_word_same_id_coalesce emptyDB "犬" "犬" "いぬ"
    "defsA" "ja" "" "defsB" h1 h2 h3⟩

/-- Witness for C7 at a concrete input: increment 0 on the empty database is
rejected without a write. -/
theorem c7_link_invalid_input_no_write_witness :
    ((0 : Int) ≤ 0 ∨ (1 : Int) ≤ 0 ∨ (0 : Int) < 1) ∧
    ∃ msg, LinkWordToSource emptyDB 0 1 "s" "s" 0 =
      (emptyDB, some (DBErr.invalidInput msg)) :=
  ⟨Or.inl le_rfl,
    c7_link_invalid_input_no_write emptyDB 0 1 "s" "s" 0 (Or.inl le_rfl)⟩

/-- A successful word upsert changes neither the sources nor the link
table. -/
theorem createOrGetWord_ok_effects {db : DB} {w l r d g : String} {id : Int}
    {db' : DB} (h : CreateOrGetWord db w l r d g = .ok (id, db')) :
    db'.sources = db.sources ∧ db'.wordSources = db.wordSources := by
  unfold CreateOrGetWord at h
  by_cases ht : goTrimSpace w = ""
  · rw [if_pos ht] at h
    cases h
  · rw [if_neg ht] at h
    cases hf : db.words.find? (wordKey (goTrimSpace w) l g) with
    | some x =>
      rw [hf] at h
      cases h
      exact ⟨rfl, rfl⟩
    | none =>
      rw [hf] at h
      cases h
      exact ⟨rfl, rfl⟩

/-- The word_sources DO UPDATE clause does not change the key columns. -/
theorem updateWSRow_key (wid sid inc : Int) (cid eid : Option Int)
    (x : WordSourceRow) :
    (updateWSRow wid sid inc cid eid x).wordId = x.wordId ∧
    (updateWSRow wid sid inc cid eid x).sourceId = x.sourceId := by
  unfold updateWSRow
  split <;> exact ⟨rfl, rfl⟩

/-- Occurrence-sum bookkeeping of the DO UPDATE path: with UNIQUE
(word_id, source_id) pairs and a conflicting row present, mapping the update
over the table adds exactly the increment to the occurrence sum of the
affected source. -/
theorem sum_filter_update (wid sid inc : Int) (cid eid : Option Int) :
    ∀ (l : List WordSourceRow) (r : WordSourceRow),
      (l.map fun x => (x.wordId, x.sourceId)).Nodup →
      l.find? (fun x => x.wordId = wid ∧ x.sourceId = sid) = some r →
      (((l.map (updateWSRow wid sid inc cid eid)).filter
          fun x => x.sourceId = sid).map (·.occurrenceCount)).sum =
        ((l.filter fun x => x.sourceId = sid).map (·.occurrenceCount)).sum +
          inc := by
  intro l
  induction l with
  | nil => intro r _ hf; cases hf
  | cons x xs ih =>
    intro r hnd hf
    rw [List.map_cons] at hnd
    have hnds := List.nodup_cons.mp hnd
    by_cases hk : x.wordId = wid ∧ x.sourceId = sid
    · have hxs : xs.map (updateWSRow wid sid inc cid eid) = xs := by
        have hfix : ∀ y ∈ xs, updateWSRow wid sid inc cid eid y = y := by
          intro y hy
          unfold updateWSRow
          rw [if_neg ?_]
          intro hky
          have hpair : (x.wordId, x.sourceId) = (y.wordId, y.sourceId) := by
            rw [hky.1, hky.2, hk.1, hk.2]
          exact hnds.1 (hpair ▸ List.mem_map.mpr ⟨y, hy, rfl⟩)
        calc xs.map (updateWSRow wid sid inc cid eid)
            = xs.map id := List.map_congr_left fun y hy => hfix y hy
          _ = xs := List.map_id xs
      have hux : updateWSRow wid sid inc cid eid x =
          { x with
            occurrenceCount := x.occurrenceCount + inc
            contextSentenceId := cid
            exampleSentenceId := eid } := by
        unfold updateWSRow
        rw [if_pos hk]
      rw [List.map_cons, hux, hxs]
      simp [List.filter_cons, hk.2]
      omega
    · have hux : updateWSRow wid sid inc cid eid x = x := by
        unfold updateWSRow
        rw [if_neg hk]
      have hf' : xs.find? (fun y => y.wordId = wid ∧ y.sourceId = sid) =
          some r := by
        rw [List.find?_cons] at hf
        simp only [hk] at hf
        simpa using hf
      have hnd' : (xs.map fun y => (y.wordId, y.sourceId)).Nodup := hnds.2
      rw [List.map_cons, hux, List.filter_cons, List.filter_cons]
      by_cases hxsid : x.sourceId = sid
      · have hpx : decide (x.sourceId = sid) = true := by simp [hxsid]
        rw [hpx]
        simp only [if_true]
        rw [List.map_cons, List.map_cons, List.sum_cons, List.sum_cons,
          ih r hnd' hf']
        omega
      · have hpx : decide (x.sourceId = sid) = false := by simp [hxsid]
        rw [hpx]
        simp only [Bool.false_eq_true, if_false]
        exact ih r hnd' hf'

/-- The capped context insert touches neither sources nor word_sources. -/
theorem linkInsertContext_preserves (db3 : DB) (wsid cid : Int) :
    (linkInsertContext db3 wsid cid).1.sources = db3.sources ∧
    (linkInsertContext db3 wsid cid).1.wordSources = db3.wordSources := by
  unfold linkInsertContext
  by_cases h5 : contextCount db3 wsid < 5
  · rw [if_pos h5]
    cases hn : nullableInt64 cid with
    | none => exact ⟨rfl, rfl⟩
    | some sid' =>
      simp only [hn]
      split <;> exact ⟨rfl, rfl⟩
  · rw [if_neg h5]
    exact ⟨rfl, rfl⟩

/-- Effects of a successful LinkWordToSource call: sources untouched, the
occurrence sum of the linked source grows by exactly the increment, and the
UNIQUE (word_id, source_id) pairs stay unique. -/
theorem link_ok_effects {db : DB} {wid sid : Int} {ctx ex : String}
    {inc : Int} {db' : DB}
    (h : LinkWordToSource db wid sid ctx ex inc = (db', none))
    (hnodup : (wsPairs db).Nodup) :
    db'.sources = db.sources ∧
    durableLinksSum db' sid = durableLinksSum db sid + inc ∧
    (wsPairs db').Nodup := by
  unfold LinkWordToSource at h
  by_cases hw : wid ≤ 0
  · rw [if_pos hw] at h
    cases h
  rw [if_neg hw] at h
  by_cases hs : sid ≤ 0
  · rw [if_pos hs] at h
    cases h
  rw [if_neg hs] at h
  by_cases hi : inc < 1
  · rw [if_pos hi] at h
    cases h
  rw [if_neg hi] at h
  dsimp only [] at h
  have hc1 := getOrCreateSentence_preserves db ctx
  have hc2 := getOrCreateSentence_preserves (getOrCreateSentence db ctx).2 ex
  have hsrc2 : ((getOrCreateSentence (getOrCreateSentence db ctx).2 ex).2).sources =
      db.sources := by rw [hc2.2.2.2, hc1.2.2.2]
  have hws2 : ((getOrCreateSentence (getOrCreateSentence db ctx).2 ex).2).wordSources =
      db.wordSources := by rw [hc2.2.1, hc1.2.1]
  cases hup : linkUpsertWordSource
      (getOrCreateSentence (getOrCreateSentence db ctx).2 ex).2 wid sid
      (getOrCreateSentence db ctx).1
      (getOrCreateSentence (getOrCreateSentence db ctx).2 ex).1 inc with
  | error e =>
    rw [hup] at h
    cases h
  | ok v =>
    rcases v with ⟨wsid, db3⟩
    rw [hup] at h
    have hpres := linkInsertContext_preserves db3 wsid
      (getOrCreateSentence db ctx).1
    have hfst : (linkInsertContext db3 wsid (getOrCreateSentence db ctx).1).1 =
        db' := congrArg Prod.fst h
    have hsrc' : db'.sources = db3.sources := by rw [← hfst]; exact hpres.1
    have hws' : db'.wordSources = db3.wordSources := by rw [← hfst]; exact hpres.2
    have hnd2 : (((getOrCreateSentence (getOrCreateSentence db ctx).2
        ex).2).wordSources.map fun x => (x.wordId, x.sourceId)).Nodup := by
      rw [hws2]
      exact hnodup
    unfold linkUpsertWordSource at hup
    cases hf : ((getOrCreateSentence (getOrCreateSentence db ctx).2
        ex).2).wordSources.find? fun r =>
        r.wordId = wid ∧ r.sourceId = sid with
    | some r =>
      rw [hf] at hup
      cases hup
      refine ⟨by rw [hsrc']; exact hsrc2, ?_, ?_⟩
      · unfold durableLinksSum
        rw [hws', ← hws2]
        exact sum_filter_update wid sid inc _ _ _ r hnd2 hf
      · unfold wsPairs
        rw [hws']
        have hcomp : ((fun x : WordSourceRow => (x.wordId, x.sourceId)) ∘
            updateWSRow wid sid inc
              (nullableInt64 (getOrCreateSentence db ctx).1)
              (nullableInt64 (getOrCreateSentence
                (getOrCreateSentence db ctx).2 ex).1)) =
            fun x : WordSourceRow => (x.wordId, x.sourceId) := by
          funext x
          have hk := updateWSRow_key wid sid inc
            (nullableInt64 (getOrCreateSentence db ctx).1)
            (nullableInt64 (getOrCreateSentence
              (getOrCreateSentence db ctx).2 ex).1) x
          simp [Function.comp, hk.1, hk.2]
        show ((((getOrCreateSentence (getOrCreateSentence db ctx).2
            ex).2).wordSources.map _).map
              fun x : WordSourceRow => (x.wordId, x.sourceId)).Nodup
        rw [List.map_map, hcomp, hws2]
        exact hnodup
    | none =>
      rw [hf] at hup
      by_cases hfk : (((getOrCreateSentence (getOrCreateSentence db ctx).2
            ex).2).words.any fun r => r.id = wid) ∧
          (((getOrCreateSentence (getOrCreateSentence db ctx).2
            ex).2).sources.any fun r => r.id = sid)
      · rw [if_pos hfk] at hup
        cases hup
        refine ⟨by rw [hsrc']; exact hsrc2, ?_, ?_⟩
        · unfold durableLinksSum
          rw [hws']
          dsimp only
          rw [← hws2, List.filter_append, List.map_append, List.sum_append]
          simp
        · unfold wsPairs
          rw [hws']
          dsimp only
          rw [List.map_append, List.nodup_append]
          refine ⟨by rw [hws2]; exact hnodup, by simp, ?_⟩
          intro a ha hb
          simp at hb
          obtain ⟨y, hy, hpy⟩ := List.mem_map.mp ha
          have hno := List.find?_eq_none.mp hf y hy
          apply hno
          have h1 : y.wordId = wid := by
            have := congrArg Prod.fst hpy
            simpa [hb] using this
          have h2 : y.sourceId = sid := by
            have := congrArg Prod.snd hpy
            simpa [hb] using this
          simp [h1, h2]
      · rw [if_neg hfk] at hup
        cases hup

/-- Setting the checkpoint: the source row keeps existing and afterwards
reads back the written index; no other table is touched (the record update
leaves words, word_sources and word_contexts definitionally unchanged). -/
theorem usp_progress (db : DB) (sid idx : Int) (h : srcExists db sid) :
    ingestLastProcessed (UpdateSourceProgress db sid idx) sid = idx ∧
    srcExists (UpdateSourceProgress db sid idx) sid := by
  unfold srcExists at h
  unfold ingestLastProcessed srcExists UpdateSourceProgress
  dsimp only
  have hcomp : ((fun r : SourceRow => decide (r.id = sid)) ∘
      fun r => if r.id = sid then { r with lastProcessedSentence := idx }
        else r) = fun r : SourceRow => decide (r.id = sid) := by
    funext r
    by_cases hr : r.id = sid <;> simp [hr]
  rw [List.find?_map, hcomp]
  cases hfs : db.sources.find? fun r => r.id = sid with
  | none =>
    rw [hfs] at h
    simp at h
  | some r =>
    have hrid : r.id = sid := by simpa using List.find?_some hfs
    simp [hrid]

/-- Effects of one successful per-sentence write callback, by induction over
its word list: the totalLinks counter and the committed occurrence sum both
grow by the words' total count, the source row keeps existing and reads back
the sentence's index as checkpoint, and link-pair uniqueness is preserved. -/
theorem writeWords_ok (sid : Int) (item : ProcessedSentence) :
    ∀ (ws : List WordData) (db : DB) (links : Int) (db' : DB) (links' : Int),
      writeWords sid item ws db links = (db', links', none) →
      srcExists db sid → (wsPairs db).Nodup →
      links' = links + (wsTotal ws : Int) ∧
      durableLinksSum db' sid = durableLinksSum db sid + (wsTotal ws : Int) ∧
      srcExists db' sid ∧ (wsPairs db').Nodup ∧
      ingestLastProcessed db' sid = Int.ofNat item.Index := by
  intro ws
  induction ws with
  | nil =>
    intro db links db' links' h hsrc hnd
    unfold writeWords at h
    obtain ⟨h1, h2⟩ : UpdateSourceProgress db sid (Int.ofNat item.Index) = db' ∧
        links = links' := by
      cases h
      exact ⟨rfl, rfl⟩
    subst h1
    have hup := usp_progress db sid (Int.ofNat item.Index) hsrc
    refine ⟨by simp [wsTotal, ← h2],
      by simp [durableLinksSum, wsTotal, UpdateSourceProgress],
      hup.2, by simpa [wsPairs, UpdateSourceProgress] using hnd, hup.1⟩
  | cons w ws ih =>
    intro db links db' links' h hsrc hnd
    unfold writeWords at h
    cases hcw : CreateOrGetWord db w.Word w.Word w.Reading w.Definitions "ja" with
    | error e =>
      rw [hcw] at h
      cases h
    | ok v =>
      rcases v with ⟨wid, db1⟩
      rw [hcw] at h
      dsimp only [] at h
      have hcweff := createOrGetWord_ok_effects hcw
      cases hlink : LinkWordToSource db1 wid sid item.Sentence item.Sentence
          (Int.ofNat w.Count) with
      | mk db2 errl =>
        rw [hlink] at h
        cases errl with
        | some e => cases h
        | none =>
          have hnd1 : (wsPairs db1).Nodup := by
            unfold wsPairs
            rw [hcweff.2]
            exact hnd
          have hleff := link_ok_effects hlink hnd1
          have hsrc1 : srcExists db1 sid := by
            unfold srcExists
            rw [hcweff.1]
            exact hsrc
          have hsrc2 : srcExists db2 sid := by
            unfold srcExists
            rw [hleff.1]
            exact hsrc1
          have hrest := ih db2 (links + Int.ofNat w.Count) db' links' h
            hsrc2 hleff.2.2
          refine ⟨?_, ?_, hrest.2.2.1, hrest.2.2.2.1, hrest.2.2.2.2⟩
          · rw [hrest.1]
            simp [wsTotal]
            omega
          · rw [hrest.2.1, hleff.2.1]
            have hdur1 : durableLinksSum db1 sid = durableLinksSum db sid := by
              unfold durableLinksSum
              rw [hcweff.2]
            rw [hdur1]
            simp [wsTotal]
            omega

/-- Occurrence totals add up over concatenated result lists. -/
theorem itemsTotal_append (a b : List ProcessedSentence) :
    itemsTotal (a ++ b) = itemsTotal a + itemsTotal b := by
  unfold itemsTotal
  rw [List.map_append, List.sum_append]

/-- Effects of one fully successful batch (the callbacks run in submission
order inside one transaction): totals and the committed sum grow by the
batch's word counts, and the checkpoint ends at the batch's last sentence
index. -/
theorem batch_ok (sid : Int) :
    ∀ (b : List ProcessedSentence) (db : DB) (links : Int) (db' : DB)
      (links' : Int),
      runCallbacks (b.map (sentenceWriteFn sid)) db links =
        (db', links', none) →
      srcExists db sid → (wsPairs db).Nodup →
      links' = links + (itemsTotal b : Int) ∧
      durableLinksSum db' sid = durableLinksSum db sid + (itemsTotal b : Int) ∧
      srcExists db' sid ∧ (wsPairs db').Nodup ∧
      (∀ k, (b.map (·.Index)).getLast? = some k →
        ingestLastProcessed db' sid = (k : Int)) ∧
      (b = [] → db' = db ∧ links' = links) := by
  intro b
  induction b with
  | nil =>
    intro db links db' links' h hsrc hnd
    obtain ⟨h1, h2⟩ : db = db' ∧ links = links' := by
      cases h
      exact ⟨rfl, rfl⟩
    subst h1
    subst h2
    refine ⟨by simp [itemsTotal], by simp [itemsTotal], hsrc, hnd, ?_, fun _ => ⟨rfl, rfl⟩⟩
    intro k hk
    simp at hk
  | cons x xs ih =>
    intro db links db' links' h hsrc hnd
    rw [List.map_cons] at h
    unfold runCallbacks at h
    rcases hx : sentenceWriteFn sid x db links with ⟨db1, links1, errx⟩
    rw [hx] at h
    cases errx with
    | some e => cases h
    | none =>
      have hwords := writeWords_ok sid x x.Words db links db1 links1 hx hsrc hnd
      have hrest := ih db1 links1 db' links' h hwords.2.2.1 hwords.2.2.2.1
      refine ⟨?_, ?_, hrest.2.2.1, hrest.2.2.2.1, ?_, ?_⟩
      · rw [hrest.1, hwords.1]
        have : itemsTotal (x :: xs) = wsTotal x.Words + itemsTotal xs := by
          unfold itemsTotal
          simp
        rw [this]
        push_cast
        omega
      · rw [hrest.2.1, hwords.2.1]
        have : itemsTotal (x :: xs) = wsTotal x.Words + itemsTotal xs := by
          unfold itemsTotal
          simp
        rw [this]
        push_cast
        omega
      · intro k hk
        cases xs with
        | nil =>
          have hempty := hrest.2.2.2.2.2 rfl
          rw [hempty.1]
          simp at hk
          rw [← hk]
          exact hwords.2.2.2.2
        | cons y ys =>
          rw [List.map_cons, List.map_cons, List.getLast?_cons_cons] at hk
          exact hrest.2.2.2.2.1 k (by rw [List.map_cons]; exact hk)
      · intro hxe
        cases hxe

/-- Effects of a fully successful pipeline run over a sequence of batches:
the returned totalLinks and the committed occurrence sum grow by the total
word count, the link pairs stay unique, and the checkpoint ends at the last
processed sentence index. -/
theorem runIngest_ok (sid : Int) :
    ∀ (bs : List (List ProcessedSentence)) (db : DB) (links : Int),
      (∀ rec ∈ (runIngestBatches sid bs db links).2.2, rec.err = none) →
      srcExists db sid → (wsPairs db).Nodup →
      (runIngestBatches sid bs db links).2.1 =
        links + (itemsTotal bs.flatten : Int) ∧
      durableLinksSum (runIngestBatches sid bs db links).1 sid =
        durableLinksSum db sid + (itemsTotal bs.flatten : Int) ∧
      srcExists (runIngestBatches sid bs db links).1 sid ∧
      (wsPairs (runIngestBatches sid bs db links).1).Nodup ∧
      (∀ k, (bs.flatten.map (·.Index)).getLast? = some k →
        ingestLastProcessed (runIngestBatches sid bs db links).1 sid =
          (k : Int)) ∧
      (bs.flatten = [] → (runIngestBatches sid bs db links).1 = db) := by
  intro bs
  induction bs with
  | nil =>
    intro db links hok hsrc hnd
    refine ⟨by simp [runIngestBatches, runBW, itemsTotal],
      by simp [runIngestBatches, runBW, itemsTotal], ?_, ?_, ?_, ?_⟩
    · simpa [runIngestBatches, runBW] using hsrc
    · simpa [runIngestBatches, runBW] using hnd
    · intro k hk
      simp at hk
    · intro _
      simp [runIngestBatches, runBW]
  | cons b bs ih =>
    intro db links hok hsrc hnd
    have hrun : runIngestBatches sid (b :: bs) db links =
        match executeBatch (b.map (sentenceWriteFn sid)) db links with
        | (s', r', e) =>
          match runIngestBatches sid bs s' r' with
          | (s'', r'', recs) => (s'', r'', ⟨db, s', e⟩ :: recs) := by
      unfold runIngestBatches
      rw [List.map_cons]
      rfl
    rcases hexec : executeBatch (b.map (sentenceWriteFn sid)) db links with
      ⟨s1, r1, e1⟩
    rcases hrest : runIngestBatches sid bs s1 r1 with ⟨s2, r2, recs2⟩
    have hout : runIngestBatches sid (b :: bs) db links =
        (s2, r2, ⟨db, s1, e1⟩ :: recs2) := by
      rw [hrun, hexec]
      dsimp only
      rw [hrest]
    have he1 : e1 = none := by
      have := hok ⟨db, s1, e1⟩ (by rw [hout]; exact List.mem_cons_self _ _)
      simpa using this
    subst he1
    have hrc : runCallbacks (b.map (sentenceWriteFn sid)) db links =
        (s1, r1, none) := by
      unfold executeBatch at hexec
      rcases hrc' : runCallbacks (b.map (sentenceWriteFn sid)) db links with
        ⟨t1, u1, ee⟩
      rw [hrc'] at hexec
      cases ee with
      | none =>
        cases hexec
        rfl
      | some e => cases hexec
    have hbatch := batch_ok sid b db links s1 r1 hrc hsrc hnd
    have hokrest : ∀ rec ∈ (runIngestBatches sid bs s1 r1).2.2,
        rec.err = none := by
      intro rec hrec
      apply hok
      rw [hout]
      rw [hrest] at hrec
      exact List.mem_cons_of_mem _ hrec
    have hih := ih s1 r1 hokrest hbatch.2.2.1 hbatch.2.2.2.1
    rw [hrest] at hih
    rw [hout]
    have hflat : (b :: bs).flatten = b ++ bs.flatten := List.flatten_cons
    refine ⟨?_, ?_, hih.2.2.1, hih.2.2.2.1, ?_, ?_⟩
    · show r2 = links + (itemsTotal (b :: bs).flatten : Int)
      rw [hflat, itemsTotal_append]
      have h1 := hih.1
      rw [hbatch.1] at h1
      push_cast at h1 ⊢
      omega
    · show durableLinksSum s2 sid = durableLinksSum db sid +
        (itemsTotal (b :: bs).flatten : Int)
      rw [hflat, itemsTotal_append]
      have h1 := hih.2.1
      rw [hbatch.2.1] at h1
      push_cast at h1 ⊢
      omega
    · intro k hk
      rw [hflat, List.map_append, List.getLast?_append] at hk
      cases hflatrest : bs.flatten.map (·.Index) with
      | nil =>
        rw [hflatrest, List.getLast?_nil, Option.none_or] at hk
        have hempty : bs.flatten = [] := by
          cases hfr : bs.flatten with
          | nil => rfl
          | cons z zs =>
            rw [hfr] at hflatrest
            simp at hflatrest
        have hs2 : s2 = s1 := hih.2.2.2.2.2 hempty
        rw [hs2]
        exact hbatch.2.2.2.2.1 k hk
      | cons z zs =>
        rw [hflatrest] at hk
        cases hm : (z :: zs).getLast? with
        | none => exact absurd (List.getLast?_eq_none_iff.mp hm) (by simp)
        | some m =>
          rw [hm] at hk
          have hmk : m = k := by simpa using hk
          subst hmk
          exact hih.2.2.2.2.1 m (by rw [hflatrest, hm])
    · intro hempty
      rw [hflat, List.append_eq_nil] at hempty
      have hs1 : s1 = db := (hbatch.2.2.2.2.2 hempty.1).1
      have hs2 : s2 = s1 := hih.2.2.2.2.2 hempty.2
      rw [hs2, hs1]

/-- C1 (amended): the checkpoint–durability guarantee holds for runs in which
every batch commits.  If the processed sentences carry the consecutive indices
s, s+1, …, s+n−1 and no batch reports an error, then afterwards
last_processed_sentence equals s+n−1, the total occurrence count of every
processed sentence is durably recorded in word_sources, and the processed
indices are exactly those i with s ≤ i < s+n.  (The original claim's
crash-recovery direction — checkpoint k implies every sentence ≤ k committed —
fails when a failed batch precedes a successful one; see the
counterexample.) -/
theorem c1_checkpoint_durability (sid : Int)
    (bs : List (List ProcessedSentence)) (db : DB) (links : Int) (s n : Nat)
    (hidx : bs.flatten.map (·.Index) = List.range' s n) (hn : 0 < n)
    (hok : ∀ rec ∈ (runIngestBatches sid bs db links).2.2, rec.err = none)
    (hsrc : srcExists db sid) (hnd : (wsPairs db).Nodup) :
    ingestLastProcessed (runIngestBatches sid bs db links).1 sid =
      ((s + n - 1 : Nat) : Int) ∧
    durableLinksSum (runIngestBatches sid bs db links).1 sid =
      durableLinksSum db sid + (itemsTotal bs.flatten : Int) ∧
    ∀ i, i ∈ bs.flatten.map (·.Index) ↔ s ≤ i ∧ i < s + n := by
  have hmain := runIngest_ok sid bs db links hok hsrc hnd
  obtain ⟨m, hm⟩ : ∃ m, n = m + 1 := ⟨n - 1, by omega⟩
  subst hm
  have hlast : (bs.flatten.map (·.Index)).getLast? = some (s + m) := by
    rw [hidx, List.range'_concat, List.getLast?_append]
    simp
  refine ⟨?_, hmain.2.1, ?_⟩
  · rw [hmain.2.2.2.2.1 (s + m) hlast]
    omega
  · intro i
    rw [hidx]
    exact List.mem_range'_1

/-- C1 witness: a one-batch, failure-free run over sentence 1 ends with the
checkpoint at its index. -/
theorem c1_checkpoint_durability_witness :
    ingestLastProcessed
      (runIngestBatches 1 [[processSentence none 0 cexSent1]] cexDB 0).1 1 =
      ((0 + 1 - 1 : Nat) : Int) :=
  (c1_checkpoint_durability 1 [[processSentence none 0 cexSent1]] cexDB 0 0 1
    (by decide) (by decide) (by decide) rfl (by decide)).1

/-- C1 counterexample to the original claim: in the two-batch run where the
batch of sentence 0 fails (its second word is empty) and the batch of
sentence 1 commits, last_processed_sentence ends at 1, yet sentence 0 — whose
index 0 is ≤ 1 and whose result contains the word 犬 — has no committed
writes: the words table holds only 猫.  So checkpoint = k does not imply the
writes of every processed sentence with index ≤ k are durably committed. -/
theorem c1_checkpoint_durability_counterexample :
    ingestLastProcessed cexRun.1 1 = 1 ∧
    (cexRun.2.2.map fun r => r.err.isSome) = [true, false] ∧
    (processSentence none 0 cexSent0).Index = 0 ∧
    ((processSentence none 0 cexSent0).Words.map fun w => w.Word) =
      ["犬", ""] ∧
    (cexRun.1.words.map fun r => r.word) = ["猫"] := by decide

/-- C2 (amended): for runs in which every batch commits, the integer returned
by Ingest grows by exactly the total occurrence count of the processed
sentences, and that growth equals the growth of the durably committed
occurrence sum in word_sources.  (In general the returned totalLinks can
exceed the durable sum: the counter is an atomic variable outside the
transaction, so occurrences added by callbacks of a batch that later rolls
back still count; see the counterexample.) -/
theorem c2_total_links_durable (sid : Int)
    (bs : List (List ProcessedSentence)) (db : DB) (links : Int)
    (hok : ∀ rec ∈ (runIngestBatches sid bs db links).2.2, rec.err = none)
    (hsrc : srcExists db sid) (hnd : (wsPairs db).Nodup) :
    (runIngestBatches sid bs db links).2.1 =
      links + (itemsTotal bs.flatten : Int) ∧
    (runIngestBatches sid bs db links).2.1 - links =
      durableLinksSum (runIngestBatches sid bs db links).1 sid -
        durableLinksSum db sid := by
  have h := runIngest_ok sid bs db links hok hsrc hnd
  refine ⟨h.1, ?_⟩
  rw [h.1, h.2.1]
  ring

/-- C2 witness: the failure-free one-batch run over sentence 1 returns one
link, matching the one durably committed occurrence. -/
theorem c2_total_links_durable_witness :
    (runIngestBatches 1 [[processSentence none 0 cexSent1]] cexDB 0).2.1 =
      0 + (itemsTotal [[processSentence none 0 cexSent1]].flatten : Int) :=
  (c2_total_links_durable 1 [[processSentence none 0 cexSent1]] cexDB 0
    (by decide) rfl (by decide)).1

/-- C2 counterexample to the original claim: running the single batch of
sentence 0 — whose first word 犬 links successfully before the empty second
word aborts the batch — returns totalLinks = 1 although the rollback leaves
the database unchanged, so the durably committed occurrence sum is 0.  An
occurrence in a rolled-back batch does contribute to the returned total. -/
theorem c2_total_links_durable_counterexample :
    cexRunSingle.2.1 = 1 ∧
    durableLinksSum cexRunSingle.1 1 = 0 ∧
    cexRunSingle.1 = cexDB := by decide

/-- Auxiliary: byte-wise string comparison is total. -/
theorem charsLe_total (as : List Char) : ∀ bs, charsLe as bs = true ∨ charsLe bs as = true := by
  induction as with
  | nil => intro bs; left; rfl
  | cons c cs ih =>
    intro bs
    cases bs with
    | nil => right; rfl
    | cons d ds =>
      simp only [charsLe]
      rcases Nat.lt_trichotomy c.toNat d.toNat with h | h | h
      · left
        rw [if_pos h]
      · have h1 : ¬ c.toNat < d.toNat := by omega
        have h2 : ¬ d.toNat < c.toNat := by omega
        rw [if_neg h1, if_neg h2, if_neg h2, if_neg h1]
        exact ih ds
      · right
        rw [if_pos h]

/-- Auxiliary: byte-wise string comparison is transitive. -/
theorem charsLe_trans (as : List Char) :
    ∀ bs cs, charsLe as bs = true → charsLe bs cs = true → charsLe as cs = true := by
  induction as with
  | nil => intro bs cs _ _; rfl
  | cons a as ih =>
    intro bs cs h1 h2
    cases bs with
    | nil => simp [charsLe] at h1
    | cons b bs =>
      cases cs with
      | nil => simp [charsLe] at h2
      | cons c cs =>
        simp only [charsLe] at h1 h2 ⊢
        rcases Nat.lt_trichotomy a.toNat b.toNat with hab | hab | hab
        · rcases Nat.lt_trichotomy b.toNat c.toNat with hbc | hbc | hbc
          · rw [if_pos (by omega : a.toNat < c.toNat)]
          · rw [if_pos (by omega : a.toNat < c.toNat)]
          · rw [if_neg (by omega : ¬ b.toNat < c.toNat),
              if_pos (by omega : c.toNat < b.toNat)] at h2
            exact absurd h2 (by simp)
        · rcases Nat.lt_trichotomy b.toNat c.toNat with hbc | hbc | hbc
          · rw [if_pos (by omega : a.toNat < c.toNat)]
          · rw [if_neg (by omega : ¬ a.toNat < c.toNat),
              if_neg (by omega : ¬ c.toNat < a.toNat)]
            rw [if_neg (by omega : ¬ a.toNat < b.toNat),
              if_neg (by omega : ¬ b.toNat < a.toNat)] at h1
            rw [if_neg (by omega : ¬ b.toNat < c.toNat),
              if_neg (by omega : ¬ c.toNat < b.toNat)] at h2
            exact ih bs cs h1 h2
          · rw [if_neg (by omega : ¬ b.toNat < c.toNat),
              if_pos (by omega : c.toNat < b.toNat)] at h2
            exact absurd h2 (by simp)
        · rw [if_neg (by omega : ¬ a.toNat < b.toNat),
            if_pos (by omega : b.toNat < a.toNat)] at h1
          exact absurd h1 (by simp)

/-- Auxiliary: equal code points give equal characters. -/
theorem char_toNat_inj (a b : Char) (h : a.toNat = b.toNat) : a = b := by
  have ha := Char.ofNat_toNat a
  have hb := Char.ofNat_toNat b
  rw [← ha, ← hb, h]

/-- Auxiliary: byte-wise string comparison is antisymmetric. -/
theorem charsLe_antisymm (as : List Char) :
    ∀ bs, charsLe as bs = true → charsLe bs as = true → as = bs := by
  induction as with
  | nil =>
    intro bs h1 h2
    cases bs with
    | nil => rfl
    | cons b bs => simp [charsLe] at h2
  | cons a as ih =>
    intro bs h1 h2
    cases bs with
    | nil => simp [charsLe] at h1
    | cons b bs =>
      simp only [charsLe] at h1 h2
      rcases Nat.lt_trichotomy a.toNat b.toNat with h | h | h
      · rw [if_neg (by omega : ¬ b.toNat < a.toNat), if_pos h] at h2
        exact absurd h2 (by simp)
      · rw [if_neg (by omega : ¬ a.toNat < b.toNat),
          if_neg (by omega : ¬ b.toNat < a.toNat)] at h1
        rw [if_neg (by omega : ¬ b.toNat < a.toNat),
          if_neg (by omega : ¬ a.toNat < b.toNat)] at h2
        rw [char_toNat_inj a b h, ih bs h1 h2]
      · rw [if_neg (by omega : ¬ a.toNat < b.toNat), if_pos h] at h1
        exact absurd h1 (by simp)

/-- Auxiliary: membership in an index bucket is membership in the entry list
together with the text condition for the key. -/
theorem bucket_mem (entries : List JMdictEntry) (t : String) (e : JMdictEntry) :
    e ∈ bucket entries t ↔ e ∈ entries ∧ textHas e t = true := by
  simp only [bucket, textHas, List.mem_flatMap, List.mem_append, List.mem_map,
    List.mem_filter, Bool.or_eq_true, List.any_eq_true, decide_eq_true_eq]
  constructor
  · rintro ⟨a, ha, (⟨k, ⟨hk, hkt⟩, rfl⟩ | ⟨k, ⟨hk, hkt⟩, rfl⟩)⟩
    · exact ⟨ha, Or.inl ⟨k, hk, hkt⟩⟩
    · exact ⟨ha, Or.inr ⟨k, hk, hkt⟩⟩
  · rintro ⟨he, (⟨k, hk, hkt⟩ | ⟨k, hk, hkt⟩)⟩
    · exact ⟨e, he, Or.inl ⟨k, ⟨hk, hkt⟩, rfl⟩⟩
    · exact ⟨e, he, Or.inr ⟨k, ⟨hk, hkt⟩, rfl⟩⟩

/-- Auxiliary: the dedup-map assignment keeps its elements inside the pool the
arguments come from. -/
theorem upsertAssoc_subset (pool acc : List JMdictEntry) (e : JMdictEntry)
    (hacc : ∀ x ∈ acc, x ∈ pool) (he : e ∈ pool) :
    ∀ x ∈ upsertAssoc acc e, x ∈ pool := by
  intro x hx
  unfold upsertAssoc at hx
  by_cases h : (acc.any fun y => y.Id = e.Id) = true
  · rw [if_pos h] at hx
    rw [List.mem_map] at hx
    obtain ⟨y, hy, hxy⟩ := hx
    by_cases hid : y.Id = e.Id
    · rw [if_pos hid] at hxy
      rw [← hxy]
      exact he
    · rw [if_neg hid] at hxy
      rw [← hxy]
      exact hacc y hy
  · rw [if_neg h] at hx
    rw [List.mem_append] at hx
    rcases hx with hx | hx
    · exact hacc x hx
    · rw [List.mem_singleton] at hx
      rw [hx]
      exact he

/-- Auxiliary: when entry ids are injective on the pool, the dedup-map
assignment has plain set-union semantics. -/
theorem upsertAssoc_mem (pool acc : List JMdictEntry) (e x : JMdictEntry)
    (hacc : ∀ y ∈ acc, y ∈ pool) (he : e ∈ pool)
    (hinj : ∀ a ∈ pool, ∀ b ∈ pool, a.Id = b.Id → a = b) :
    x ∈ upsertAssoc acc e ↔ x ∈ acc ∨ x = e := by
  unfold upsertAssoc
  by_cases h : (acc.any fun y => y.Id = e.Id) = true
  · rw [if_pos h]
    have hfix : ∀ y ∈ acc, (if y.Id = e.Id then e else y) = y := by
      intro y hy
      by_cases hid : y.Id = e.Id
      · rw [if_pos hid]
        exact hinj e he y (hacc y hy) hid.symm
      · rw [if_neg hid]
    have hmapid : (acc.map fun y => if y.Id = e.Id then e else y) = acc := by
      conv_rhs => rw [← List.map_id acc]
      exact List.map_congr_left hfix
    rw [hmapid]
    have he_acc : e ∈ acc := by
      rw [List.any_eq_true] at h
      obtain ⟨y, hy, hid⟩ := h
      have hye : y = e :=
        hinj y (hacc y hy) e he (of_decide_eq_true hid)
      rw [← hye]
      exact hy
    constructor
    · exact Or.inl
    · rintro (hx | rfl)
      · exact hx
      · exact he_acc
  · rw [if_neg h]
    simp [List.mem_append]

/-- Auxiliary: the dedup-map assignment preserves distinctness of the held
ids. -/
theorem upsertAssoc_nodup (acc : List JMdictEntry) (e : JMdictEntry)
    (h : (acc.map fun x => x.Id).Nodup) :
    ((upsertAssoc acc e).map fun x => x.Id).Nodup := by
  unfold upsertAssoc
  by_cases hc : (acc.any fun x => x.Id = e.Id) = true
  · rw [if_pos hc]
    have hids : ((acc.map fun y => if y.Id = e.Id then e else y).map fun x => x.Id) =
        acc.map fun x => x.Id := by
      rw [List.map_map]
      apply List.map_congr_left
      intro y hy
      by_cases hid : y.Id = e.Id
      · simp [Function.comp, hid]
      · simp [Function.comp, hid]
    rw [hids]
    exact h
  · rw [if_neg hc]
    rw [List.map_append]
    have hne : e.Id ∉ acc.map fun x => x.Id := by
      rw [List.mem_map]
      rintro ⟨y, hy, hid⟩
      exact hc (List.any_eq_true.mpr ⟨y, hy, decide_eq_true hid⟩)
    simp [List.nodup_append, h, hne]

/-- Auxiliary: folding bucket elements into the dedup map keeps everything in
the pool. -/
theorem foldl_upsert_subset (pool : List JMdictEntry) :
    ∀ (l acc : List JMdictEntry), (∀ x ∈ acc, x ∈ pool) → (∀ x ∈ l, x ∈ pool) →
      ∀ x ∈ l.foldl upsertAssoc acc, x ∈ pool := by
  intro l
  induction l with
  | nil =>
    intro acc hacc _ x hx
    exact hacc x hx
  | cons a l ih =>
    intro acc hacc hl x hx
    rw [List.foldl_cons] at hx
    exact ih (upsertAssoc acc a)
      (upsertAssoc_subset pool acc a hacc (hl a (List.mem_cons_self a l)))
      (fun y hy => hl y (List.mem_cons_of_mem a hy)) x hx

/-- Auxiliary: with injective ids, the candidate fold has set-union
semantics. -/
theorem foldl_upsert_mem (pool : List JMdictEntry)
    (hinj : ∀ a ∈ pool, ∀ b ∈ pool, a.Id = b.Id → a = b) :
    ∀ (l acc : List JMdictEntry), (∀ y ∈ acc, y ∈ pool) → (∀ y ∈ l, y ∈ pool) →
      ∀ x, x ∈ l.foldl upsertAssoc acc ↔ x ∈ acc ∨ x ∈ l := by
  intro l
  induction l with
  | nil =>
    intro acc _ _ x
    simp
  | cons a l ih =>
    intro acc hacc hl x
    rw [List.foldl_cons]
    rw [ih (upsertAssoc acc a)
      (upsertAssoc_subset pool acc a hacc (hl a (List.mem_cons_self a l)))
      (fun y hy => hl y (List.mem_cons_of_mem a hy)) x]
    rw [upsertAssoc_mem pool acc a x hacc (hl a (List.mem_cons_self a l)) hinj]
    simp [List.mem_cons]
    tauto

/-- Auxiliary: the candidate fold preserves distinctness of the held ids. -/
theorem foldl_upsert_nodup :
    ∀ (l acc : List JMdictEntry), ((acc.map fun x => x.Id).Nodup) →
      (((l.foldl upsertAssoc acc).map fun x => x.Id).Nodup) := by
  intro l
  induction l with
  | nil =>
    intro acc h
    exact h
  | cons a l ih =>
    intro acc h
    rw [List.foldl_cons]
    exact ih (upsertAssoc acc a) (upsertAssoc_nodup acc a h)

/-- Auxiliary: membership after one search step — the accumulator, plus the
bucket of the term when the term is non-empty. -/
theorem searchTerm_mem (entries acc : List JMdictEntry) (t : String)
    (x : JMdictEntry)
    (hinj : ∀ a ∈ entries, ∀ b ∈ entries, a.Id = b.Id → a = b)
    (hacc : ∀ y ∈ acc, y ∈ entries) :
    x ∈ searchTerm entries acc t ↔
      x ∈ acc ∨ (t ≠ "" ∧ x ∈ entries ∧ textHas x t = true) := by
  unfold searchTerm
  by_cases ht : t = ""
  · rw [if_pos ht]
    simp [ht]
  · rw [if_neg ht]
    rw [foldl_upsert_mem entries hinj (bucket entries t) acc hacc
      (fun y hy => ((bucket_mem entries t y).mp hy).1) x]
    rw [bucket_mem]
    tauto

/-- Auxiliary: one search step keeps the candidates inside the entry list. -/
theorem searchTerm_subset (entries acc : List JMdictEntry) (t : String)
    (hacc : ∀ y ∈ acc, y ∈ entries) :
    ∀ y ∈ searchTerm entries acc t, y ∈ entries := by
  intro y hy
  unfold searchTerm at hy
  by_cases ht : t = ""
  · rw [if_pos ht] at hy
    exact hacc y hy
  · rw [if_neg ht] at hy
    exact foldl_upsert_subset entries (bucket entries t) acc hacc
      (fun z hz => ((bucket_mem entries t z).mp hz).1) y hy

/-- Auxiliary: one search step preserves distinctness of the candidate ids. -/
theorem searchTerm_nodup (entries acc : List JMdictEntry) (t : String)
    (h : (acc.map fun x => x.Id).Nodup) :
    ((searchTerm entries acc t).map fun x => x.Id).Nodup := by
  unfold searchTerm
  by_cases ht : t = ""
  · rw [if_pos ht]
    exact h
  · rw [if_neg ht]
    exact foldl_upsert_nodup (bucket entries t) acc h

/-- Auxiliary: the candidate set of findMatches is exactly the entries holding
the word (when non-empty) or the lemma (when non-empty) among their texts. -/
theorem findCandidates_mem (entries : List JMdictEntry) (word lem : String)
    (x : JMdictEntry)
    (hinj : ∀ a ∈ entries, ∀ b ∈ entries, a.Id = b.Id → a = b) :
    x ∈ findCandidates entries word lem ↔
      x ∈ entries ∧
        ((word ≠ "" ∧ textHas x word = true) ∨
         (lem ≠ "" ∧ textHas x lem = true)) := by
  unfold findCandidates
  rw [searchTerm_mem entries (searchTerm entries [] word) lem x hinj
    (searchTerm_subset entries [] word (by simp))]
  rw [searchTerm_mem entries [] word x hinj (by simp)]
  simp only [List.not_mem_nil, false_or]
  tauto

/-- Auxiliary: candidate ids are distinct. -/
theorem findCandidates_nodup (entries : List JMdictEntry) (word lem : String) :
    ((findCandidates entries word lem).map fun x => x.Id).Nodup := by
  unfold findCandidates
  exact searchTerm_nodup entries _ lem
    (searchTerm_nodup entries [] word (by simp))

/-- Auxiliary: the candidates are entries. -/
theorem findCandidates_subset (entries : List JMdictEntry) (word lem : String) :
    ∀ y ∈ findCandidates entries word lem, y ∈ entries := by
  unfold findCandidates
  exact searchTerm_subset entries _ lem
    (searchTerm_subset entries [] word (by simp))

/-- Auxiliary: unfolding of the isMatch filter into its two conditions. -/
theorem isMatch_eq (e : JMdictEntry) (w l p : String) :
    isMatch e w l p = true ↔
      ((e.Kanji.any fun k => k.Text = w || k.Text = l) ||
        (e.Kana.any fun k => k.Text = w || k.Text = l)) = true ∧
      (p = "" ∨ (e.Kana.any fun k =>
        ToHiragana k.Text = ToHiragana p) = true) := by
  unfold isMatch
  cases hT : (e.Kanji.any fun k => k.Text = w || k.Text = l) ||
      (e.Kana.any fun k => k.Text = w || k.Text = l) with
  | false => simp [hT]
  | true =>
    by_cases hp : p = ""
    · simp [hT, hp]
    · simp [hT, hp]

/-- Auxiliary: the single-term text condition implies the two-term text
condition of isMatch. -/
theorem textHas_isMatchText (e : JMdictEntry) (w l t : String)
    (ht : t = w ∨ t = l) (h : textHas e t = true) :
    ((e.Kanji.any fun k => k.Text = w || k.Text = l) ||
      (e.Kana.any fun k => k.Text = w || k.Text = l)) = true := by
  simp only [textHas, Bool.or_eq_true, List.any_eq_true, decide_eq_true_eq] at h ⊢
  rcases h with ⟨k, hk, hkt⟩ | ⟨k, hk, hkt⟩
  · exact Or.inl ⟨k, hk, by rcases ht with rfl | rfl; exact Or.inl hkt; exact Or.inr hkt⟩
  · exact Or.inr ⟨k, hk, by rcases ht with rfl | rfl; exact Or.inl hkt; exact Or.inr hkt⟩

/-- C3 (amended): over a dictionary with distinct entry ids, findMatches
returns exactly the entries that hold a NON-EMPTY matched term — some kanji or
kana element's text equals word with word non-empty, or equals lemma with
lemma non-empty — and whose kana normalize to the pronunciation when one is
given; the result is strictly ascending (hence duplicate-free) in the
byte-wise lexicographic order of the entry ids.  (The original claim omits the
non-emptiness of the matched term: the search helper skips empty keys, so an
entry whose element text is the empty string is not returned for an empty
word/lemma even though it satisfies the claim's condition; see the
counterexample.) -/
theorem c3_lookup_match_set (entries : List JMdictEntry) (word lem pron : String)
    (hids : (entries.map fun e => e.Id).Nodup) :
    (∀ e, e ∈ findMatches entries word lem pron ↔
      e ∈ entries ∧
        ((word ≠ "" ∧ textHas e word = true) ∨
         (lem ≠ "" ∧ textHas e lem = true)) ∧
        (pron = "" ∨ (e.Kana.any fun k =>
          ToHiragana k.Text = ToHiragana pron) = true)) ∧
    (findMatches entries word lem pron).Pairwise fun a b => goStrLt a.Id b.Id := by
  have hinj := List.inj_on_of_nodup_map hids
  constructor
  · intro e
    unfold findMatches
    rw [(List.perm_insertionSort _ _).mem_iff]
    rw [List.mem_filter]
    rw [findCandidates_mem entries word lem e hinj]
    rw [isMatch_eq]
    constructor
    · rintro ⟨⟨he, hcand⟩, _, hpron⟩
      exact ⟨he, hcand, hpron⟩
    · rintro ⟨he, hcand, hpron⟩
      refine ⟨⟨he, hcand⟩, ?_, hpron⟩
      rcases hcand with ⟨_, ht⟩ | ⟨_, ht⟩
      · exact textHas_isMatchText e word lem word (Or.inl rfl) ht
      · exact textHas_isMatchText e word lem lem (Or.inr rfl) ht
  · unfold findMatches
    haveI : IsTotal JMdictEntry fun a b => goStrLe a.Id b.Id = true :=
      ⟨fun a b => charsLe_total a.Id.data b.Id.data⟩
    haveI : IsTrans JMdictEntry fun a b => goStrLe a.Id b.Id = true :=
      ⟨fun a b c h1 h2 => charsLe_trans a.Id.data b.Id.data c.Id.data h1 h2⟩
    have hsorted := List.sorted_insertionSort
      (fun a b => goStrLe a.Id b.Id = true)
      ((findCandidates entries word lem).filter fun e => isMatch e word lem pron)
    have hperm := List.perm_insertionSort
      (fun a b => goStrLe a.Id b.Id = true)
      ((findCandidates entries word lem).filter fun e => isMatch e word lem pron)
    have hsub : (((findCandidates entries word lem).filter fun e =>
        isMatch e word lem pron).map fun x => x.Id).Sublist
        ((findCandidates entries word lem).map fun x => x.Id) :=
      List.Sublist.map (fun x => x.Id)
        (List.filter_sublist (findCandidates entries word lem))
    have hfilterNodup : (((findCandidates entries word lem).filter fun e =>
        isMatch e word lem pron).map fun x => x.Id).Nodup :=
      (findCandidates_nodup entries word lem).sublist hsub
    have hsortNodup :
        ((List.insertionSort (fun a b => goStrLe a.Id b.Id = true)
          ((findCandidates entries word lem).filter fun e =>
            isMatch e word lem pron)).map fun x => x.Id).Nodup :=
      ((hperm.map fun x => x.Id).nodup_iff).mpr hfilterNodup
    have hpw := List.pairwise_map.mp hsortNodup
    exact List.Pairwise.imp (fun h => ⟨h.1, h.2⟩)
      (List.Pairwise.and hsorted hpw)

/-- C3 witness: the one-entry dictionary looked up by its kanji text returns
that entry. -/
theorem c3_lookup_match_set_witness :
    c3wEntry ∈ findMatches [c3wEntry] "犬" "" "" :=
  ((c3_lookup_match_set [c3wEntry] "犬" "" "" (by decide)).1 c3wEntry).mpr
    (by decide)

/-- C3 counterexample to the original claim: the entry whose only kana element
has empty text satisfies the claim's retention condition at word = lemma =
pronunciation = "" (its kana text equals the word, and the pronunciation is
empty), yet findMatches returns the empty list, because the search helper
skips empty search terms and the entry never becomes a candidate. -/
theorem c3_lookup_match_set_counterexample :
    ((cexKanaEmpty.Kanji.any fun k => k.Text = "" || k.Text = "") ||
      (cexKanaEmpty.Kana.any fun k => k.Text = "" || k.Text = "")) = true ∧
    findMatches [cexKanaEmpty] "" "" "" = [] := by decide

end Readerer
